import Mathlib

/-!
Verification of `skills/webgpu-threejs-tsl/scripts/batch-rename-models.py`.

The script loads a JSON asset catalog, rewrites the `id`, `label`,
`description` and `tags` fields of every asset whose `type` is `"model"`
and whose id's trailing segment (after the last `/`) is a key of a fixed
rename table, and serializes the result (with `indent=2`) to a second file.

The embedding models JSON values as an inductive type (`Json`), Python
dicts as ordered association lists (first binding wins on lookup, in-place
replacement on assignment, append for a fresh key), Python exceptions as
`Except`, and the serializer/deserializer pair `json.dump` / `json.load`
as executable functions on character lists.
-/

/-- JSON values as produced by Python's `json.load`: objects are ordered
key/value lists (Python dicts preserve insertion order).  Numbers are
modelled as integers; the catalog schema uses only strings and lists. -/
inductive Json where
  | null : Json
  | bool : Bool → Json
  | num : Int → Json
  | str : String → Json
  | arr : List Json → Json
  | obj : List (String × Json) → Json
deriving Repr

/-- Strong induction for the nested inductive `Json`: to prove `P` for
every value, it suffices to handle each constructor, receiving the
hypothesis for every array element and every object field value. -/
theorem Json.inductionOn {P : Json → Prop}
    (hnull : P .null) (hbool : ∀ b, P (.bool b)) (hnum : ∀ n, P (.num n))
    (hstr : ∀ s, P (.str s))
    (harr : ∀ xs, (∀ x ∈ xs, P x) → P (.arr xs))
    (hobj : ∀ kvs, (∀ p ∈ kvs, P p.2) → P (.obj kvs)) :
    ∀ v, P v := by
  have key : ∀ n v, sizeOf v ≤ n → P v := by
    intro n
    induction n with
    | zero =>
      intro v h
      cases v <;> simp at h
    | succ n ih =>
      intro v h
      cases v with
      | null => exact hnull
      | bool b => exact hbool b
      | num m => exact hnum m
      | str s => exact hstr s
      | arr xs =>
        refine harr xs (fun x hx => ih x ?_)
        have hlt := List.sizeOf_lt_of_mem hx
        have hs : sizeOf (Json.arr xs) = 1 + sizeOf xs := by simp
        omega
      | obj kvs =>
        refine hobj kvs (fun p hp => ih p.2 ?_)
        have hlt := List.sizeOf_lt_of_mem hp
        obtain ⟨k, v'⟩ := p
        have hs : sizeOf (Json.obj kvs) = 1 + sizeOf kvs := by simp
        simp only [Prod.mk.sizeOf_spec] at hlt
        simp only []
        omega
  exact fun v => key (sizeOf v) v le_rfl

mutual

/-- Structural equality test on `Json` values. -/
def Json.beq : Json → Json → Bool
  | .null, .null => true
  | .bool a, .bool b => a == b
  | .num a, .num b => a == b
  | .str a, .str b => a == b
  | .arr xs, .arr ys => Json.beqList xs ys
  | .obj xs, .obj ys => Json.beqObj xs ys
  | _, _ => false

/-- Elementwise equality test on JSON arrays. -/
def Json.beqList : List Json → List Json → Bool
  | [], [] => true
  | x :: xs, y :: ys => Json.beq x y && Json.beqList xs ys
  | _, _ => false

/-- Fieldwise equality test on JSON objects. -/
def Json.beqObj : List (String × Json) → List (String × Json) → Bool
  | [], [] => true
  | (k, v) :: xs, (k', v') :: ys => k == k' && Json.beq v v' && Json.beqObj xs ys
  | _, _ => false

end

/-- The equality test decides propositional equality. -/
theorem Json.beq_iff : ∀ a b : Json, Json.beq a b = true ↔ a = b := by
  intro a
  induction a using Json.inductionOn with
  | hnull => intro b; cases b <;> simp [Json.beq]
  | hbool x => intro b; cases b <;> simp [Json.beq]
  | hnum x => intro b; cases b <;> simp [Json.beq]
  | hstr x => intro b; cases b <;> simp [Json.beq]
  | harr xs ih =>
    intro b
    cases b with
    | arr ys =>
      simp only [Json.beq, Json.arr.injEq]
      induction xs generalizing ys with
      | nil => cases ys <;> simp [Json.beqList]
      | cons x xs ihl =>
        cases ys with
        | nil => simp [Json.beqList]
        | cons y ys =>
          simp only [Json.beqList, Bool.and_eq_true, List.cons.injEq]
          rw [ih x (by simp), ihl (fun z hz => ih z (by simp [hz])) ys]
    | null => simp [Json.beq]
    | bool y => simp [Json.beq]
    | num y => simp [Json.beq]
    | str y => simp [Json.beq]
    | obj ys => simp [Json.beq]
  | hobj xs ih =>
    intro b
    cases b with
    | obj ys =>
      simp only [Json.beq, Json.obj.injEq]
      induction xs generalizing ys with
      | nil => cases ys <;> simp [Json.beqObj]
      | cons x xs ihl =>
        cases ys with
        | nil => simp [Json.beqObj]
        | cons y ys =>
          obtain ⟨k, v⟩ := x
          obtain ⟨k', v'⟩ := y
          simp only [Json.beqObj, Bool.and_eq_true, List.cons.injEq, Prod.mk.injEq,
            beq_iff_eq]
          rw [ih (k, v) (by simp), ihl (fun z hz => ih z (by simp [hz])) ys]
    | null => simp [Json.beq]
    | bool y => simp [Json.beq]
    | num y => simp [Json.beq]
    | str y => simp [Json.beq]
    | arr ys => simp [Json.beq]

instance : DecidableEq Json := fun a b => decidable_of_iff _ (Json.beq_iff a b)

/-- First-match association-list lookup: `d[k]` read on a Python dict. -/
def lookupA {β : Type} : List (String × β) → String → Option β
  | [], _ => none
  | (k', v) :: rest, k => if k' = k then some v else lookupA rest k

/-- Python dict assignment `d[k] = v`: replace the binding in place if the
key is present, otherwise append the new binding at the end. -/
def setKey : List (String × Json) → String → Json → List (String × Json)
  | [], k, v => [(k, v)]
  | (k', v') :: rest, k, v =>
    if k' = k then (k, v) :: rest else (k', v') :: setKey rest k v

/-- Python `s.split('/')`: split a character list on `'/'`, keeping empty
segments, never returning the empty list. -/
def splitSlash : List Char → List (List Char)
  | [] => [[]]
  | c :: rest =>
    match splitSlash rest with
    | [] => [[c]]
    | s :: ss => if c = '/' then [] :: s :: ss else (c :: s) :: ss

/-- Characters after the last `'/'` (the whole list if there is none):
Python `s.split('/')[-1]` on the underlying characters. -/
def lastSegment (s : List Char) : List Char :=
  (splitSlash s).getLastD []

/-- Python `s.split('/')[-1]` on strings. -/
def trailingSegment (s : String) : String :=
  ⟨lastSegment s.data⟩

/-- One entry of the script's rename table: the replacement name (the new
id is `"downloads-pack/" ++ name`), label, description and tags. -/
structure RenameData where
  name : String
  label : String
  description : String
  tags : List String
deriving DecidableEq, Repr

/-- The script's hardcoded `renames` dict, in source order. -/
def renames : List (String × RenameData) :=
  [ ("standard-model-1",
     ⟨"decorative-object-1", "Decorative Object 1",
      "3D decorative object for scenes (7.6M, medium-poly)",
      ["decorative", "prop", "medium-poly", "indoor"]⟩),
    ("detailed-model-2",
     ⟨"detailed-prop-1", "Detailed Prop 1",
      "High-detail prop model (9.7M, high-poly)",
      ["prop", "detailed", "high-poly", "decorative"]⟩),
    ("simple-model-3",
     ⟨"simple-prop-1", "Simple Prop 1",
      "Simple prop for background (4.7M, low-poly)",
      ["prop", "simple", "low-poly", "background"]⟩),
    ("detailed-model-4",
     ⟨"detailed-prop-2", "Detailed Prop 2",
      "High-detail prop model (13M, high-poly)",
      ["prop", "detailed", "high-poly", "decorative"]⟩),
    ("standard-model-5",
     ⟨"standard-prop-1", "Standard Prop 1",
      "Standard prop model (5.2M, medium-poly)",
      ["prop", "standard", "medium-poly"]⟩),
    ("standard-model-6",
     ⟨"standard-prop-2", "Standard Prop 2",
      "Standard prop model (5.5M, medium-poly)",
      ["prop", "standard", "medium-poly"]⟩),
    ("detailed-model-7",
     ⟨"detailed-prop-3", "Detailed Prop 3",
      "High-detail prop model (11M, high-poly)",
      ["prop", "detailed", "high-poly"]⟩),
    ("standard-model-8",
     ⟨"standard-prop-3", "Standard Prop 3",
      "Standard prop model (6.8M, medium-poly)",
      ["prop", "standard", "medium-poly"]⟩),
    ("standard-model-9",
     ⟨"standard-prop-4", "Standard Prop 4",
      "Standard prop model (9.0M, medium-poly)",
      ["prop", "standard", "medium-poly"]⟩),
    ("detailed-model-11",
     ⟨"detailed-prop-4", "Detailed Prop 4",
      "High-detail prop model (9.7M, high-poly)",
      ["prop", "detailed", "high-poly"]⟩),
    ("standard-model-12",
     ⟨"standard-prop-5", "Standard Prop 5",
      "Standard prop model (7.3M, medium-poly)",
      ["prop", "standard", "medium-poly"]⟩),
    ("detailed-model-13",
     ⟨"chinese-dragon", "Chinese Dragon",
      "Oriental dragon with detailed scales and traditional design (12M, high-poly)",
      ["dragon", "fantasy", "creature", "high-poly", "hero-asset", "oriental"]⟩),
    ("detailed-model-14",
     ⟨"detailed-prop-5", "Detailed Prop 5",
      "High-detail prop model (10M, high-poly)",
      ["prop", "detailed", "high-poly"]⟩) ]

/-- Python exceptions the script can raise while updating the catalog. -/
inductive PyErr where
  | keyError : PyErr
  | typeError : PyErr
  | attributeError : PyErr
deriving DecidableEq, Repr

/-- The four assignments of the update loop body, in source order:
`asset['id'] = f"downloads-pack/{name}"`, then `label`, `description`,
`tags`. -/
def applyRename (a : List (String × Json)) (rd : RenameData) : List (String × Json) :=
  let a1 := setKey a "id" (.str ("downloads-pack/" ++ rd.name))
  let a2 := setKey a1 "label" (.str rd.label)
  let a3 := setKey a2 "description" (.str rd.description)
  setKey a3 "tags" (.arr (rd.tags.map .str))

/-- One iteration of the update loop on one asset dict:
`if asset['type'] == 'model':` (KeyError when `type` is absent, skip when
it is any value other than the string `"model"`), `old_id =
asset['id'].split('/')[-1]` (KeyError when `id` is absent, AttributeError
when it is not a string), `if old_id in renames:` rewrite the four
fields, else leave the asset alone. -/
def updateAsset (a : List (String × Json)) : Except PyErr (List (String × Json)) :=
  match lookupA a "type" with
  | none => .error .keyError
  | some (Json.str t) =>
    if t = "model" then
      match lookupA a "id" with
      | none => .error .keyError
      | some (Json.str i) =>
        match lookupA renames (trailingSegment i) with
        | none => .ok a
        | some rd => .ok (applyRename a rd)
      | some _ => .error .attributeError
    else .ok a
  | some _ => .ok a

/-- The update-loop body lifted to a JSON value: every element of
`catalog['assets']` must be a dict. -/
def updAssetJson : Json → Except PyErr Json
  | .obj a =>
    match updateAsset a with
    | .error e => .error e
    | .ok b => .ok (.obj b)
  | _ => .error .typeError

/-- The update loop `for asset in catalog['assets']`: assets are processed
one at a time, in list order; the first exception aborts the run. -/
def updateAssets : List Json → Except PyErr (List Json)
  | [] => .ok []
  | a :: rest =>
    match updAssetJson a with
    | .error e => .error e
    | .ok a' =>
      match updateAssets rest with
      | .error e => .error e
      | .ok rest' => .ok (a' :: rest')

/-- The whole update phase on the loaded catalog: look up
`catalog['assets']` (KeyError when absent, TypeError when the catalog is
not a dict or `assets` not a list), run the loop, and put the updated
asset list back in place. -/
def updateCatalog : Json → Except PyErr Json
  | .obj kvs =>
    match lookupA kvs "assets" with
    | some (.arr assets) =>
      match updateAssets assets with
      | .error e => .error e
      | .ok as2 => .ok (.obj (setKey kvs "assets" (.arr as2)))
    | some _ => .error .typeError
    | none => .error .keyError
  | _ => .error .typeError

theorem lookupA_setKey_self (a : List (String × Json)) (k : String) (v : Json) :
    lookupA (setKey a k v) k = some v := by
  induction a with
  | nil => simp [setKey, lookupA]
  | cons p rest ih =>
    obtain ⟨q, w⟩ := p
    by_cases h : q = k <;> simp [setKey, h, lookupA, ih]

theorem lookupA_setKey_ne (a : List (String × Json)) (k : String) (v : Json)
    (k' : String) (h : k' ≠ k) :
    lookupA (setKey a k v) k' = lookupA a k' := by
  induction a with
  | nil => simp [setKey, lookupA, Ne.symm h]
  | cons p rest ih =>
    obtain ⟨q, w⟩ := p
    by_cases hq : q = k
    · subst hq
      simp [setKey, lookupA, Ne.symm h]
    · simp [setKey, hq, lookupA, ih]

theorem keys_setKey (a : List (String × Json)) (k : String) (v w : Json)
    (h : lookupA a k = some w) :
    (setKey a k v).map Prod.fst = a.map Prod.fst := by
  induction a with
  | nil => simp [lookupA] at h
  | cons p rest ih =>
    obtain ⟨q, u⟩ := p
    by_cases hq : q = k
    · subst hq; simp [setKey]
    · simp [lookupA, hq] at h
      simp [setKey, hq, ih h]

theorem setKey_setKey (a : List (String × Json)) (k : String) (v w : Json) :
    setKey (setKey a k v) k w = setKey a k w := by
  induction a with
  | nil => simp [setKey]
  | cons p rest ih =>
    obtain ⟨q, u⟩ := p
    by_cases hq : q = k <;> simp [setKey, hq, ih]

theorem getLastD_append_cons {α : Type} (l₁ : List α) (x : α) (l₂ : List α) :
    ∀ d, (l₁ ++ x :: l₂).getLastD d = (x :: l₂).getLastD d := by
  induction l₁ with
  | nil => intro d; rfl
  | cons y ys ih =>
    intro d
    rw [List.cons_append, List.getLastD_cons, ih y, List.getLastD_cons,
      List.getLastD_cons]

theorem splitSlash_ne_nil (s : List Char) : splitSlash s ≠ [] := by
  cases s with
  | nil => simp [splitSlash]
  | cons c rest =>
    simp only [splitSlash]
    cases h : splitSlash rest with
    | nil => simp
    | cons s ss => by_cases hc : c = '/' <;> simp [hc]

theorem splitSlash_append (xs ys : List Char) :
    splitSlash (xs ++ '/' :: ys) = splitSlash xs ++ splitSlash ys := by
  induction xs with
  | nil =>
    obtain ⟨s, ss, h⟩ := List.exists_cons_of_ne_nil (splitSlash_ne_nil ys)
    simp [splitSlash, h]
  | cons c xs ih =>
    obtain ⟨s, ss, h⟩ := List.exists_cons_of_ne_nil (splitSlash_ne_nil xs)
    by_cases hc : c = '/' <;>
      simp [splitSlash, ih, h, hc]

theorem splitSlash_no_slash (xs : List Char) (h : '/' ∉ xs) : splitSlash xs = [xs] := by
  induction xs with
  | nil => rfl
  | cons c rest ih =>
    have hc : c ≠ '/' := fun hh => h (by simp [hh])
    have hrest : '/' ∉ rest := fun hh => h (by simp [hh])
    simp [splitSlash, ih hrest, fun hh => hc hh]

theorem lastSegment_append (xs ys : List Char) :
    lastSegment (xs ++ '/' :: ys) = lastSegment ys := by
  unfold lastSegment
  rw [splitSlash_append]
  obtain ⟨s, ss, h⟩ := List.exists_cons_of_ne_nil (splitSlash_ne_nil ys)
  rw [h, getLastD_append_cons]

theorem lastSegment_no_slash (xs : List Char) (h : '/' ∉ xs) : lastSegment xs = xs := by
  simp [lastSegment, splitSlash_no_slash xs h]

theorem trailingSegment_slash_append (p k : String) (hk : '/' ∉ k.data) :
    trailingSegment (p ++ "/" ++ k) = k := by
  have hdata : (p ++ "/" ++ k).data = p.data ++ '/' :: k.data := by
    rw [String.data_append, String.data_append,
      show ("/" : String).data = ['/'] from rfl, List.append_assoc]
    rfl
  unfold trailingSegment
  rw [hdata, lastSegment_append, lastSegment_no_slash _ hk]

theorem trailingSegment_pack (n : String) (hn : '/' ∉ n.data) :
    trailingSegment ("downloads-pack/" ++ n) = n := by
  have hlit : ("downloads-pack/" : String).data =
      ("downloads-pack" : String).data ++ ['/'] := by decide
  have hdata : (("downloads-pack/" : String) ++ n).data =
      ("downloads-pack" : String).data ++ '/' :: n.data := by
    rw [String.data_append, hlit, List.append_assoc]
    rfl
  unfold trailingSegment
  rw [hdata, lastSegment_append, lastSegment_no_slash _ hn]

theorem lookupA_mem {β : Type} (l : List (String × β)) (k : String) (v : β)
    (h : lookupA l k = some v) : (k, v) ∈ l := by
  induction l with
  | nil => simp [lookupA] at h
  | cons p rest ih =>
    obtain ⟨q, w⟩ := p
    by_cases hq : q = k
    · subst hq
      simp [lookupA] at h
      simp [h]
    · simp only [lookupA, if_neg hq] at h
      exact List.mem_cons_of_mem _ (ih h)

/-- Every rename-table entry's replacement name contains no slash, and is
itself absent from the table's key set. -/
theorem renames_all_prop :
    ∀ p ∈ renames, '/' ∉ p.2.name.data ∧ lookupA renames p.2.name = none := by
  decide

/-- The replacement name attached to any table key contains no slash and
is not itself a table key. -/
theorem renames_entry_prop (k : String) (rd : RenameData)
    (h : lookupA renames k = some rd) :
    '/' ∉ rd.name.data ∧ lookupA renames rd.name = none :=
  renames_all_prop (k, rd) (lookupA_mem _ _ _ h)

theorem applyRename_id (a : List (String × Json)) (rd : RenameData) :
    lookupA (applyRename a rd) "id" = some (.str ("downloads-pack/" ++ rd.name)) := by
  unfold applyRename
  rw [lookupA_setKey_ne _ _ _ _ (by decide), lookupA_setKey_ne _ _ _ _ (by decide),
    lookupA_setKey_ne _ _ _ _ (by decide), lookupA_setKey_self]

theorem applyRename_label (a : List (String × Json)) (rd : RenameData) :
    lookupA (applyRename a rd) "label" = some (.str rd.label) := by
  unfold applyRename
  rw [lookupA_setKey_ne _ _ _ _ (by decide), lookupA_setKey_ne _ _ _ _ (by decide),
    lookupA_setKey_self]

theorem applyRename_description (a : List (String × Json)) (rd : RenameData) :
    lookupA (applyRename a rd) "description" = some (.str rd.description) := by
  unfold applyRename
  rw [lookupA_setKey_ne _ _ _ _ (by decide), lookupA_setKey_self]

theorem applyRename_tags (a : List (String × Json)) (rd : RenameData) :
    lookupA (applyRename a rd) "tags" = some (.arr (rd.tags.map Json.str)) := by
  unfold applyRename
  rw [lookupA_setKey_self]

theorem applyRename_other (a : List (String × Json)) (rd : RenameData) (k : String)
    (h1 : k ≠ "id") (h2 : k ≠ "label") (h3 : k ≠ "description") (h4 : k ≠ "tags") :
    lookupA (applyRename a rd) k = lookupA a k := by
  unfold applyRename
  rw [lookupA_setKey_ne _ _ _ _ h4, lookupA_setKey_ne _ _ _ _ h3,
    lookupA_setKey_ne _ _ _ _ h2, lookupA_setKey_ne _ _ _ _ h1]

theorem updateAsset_matched (a : List (String × Json)) (idv : String) (rd : RenameData)
    (htype : lookupA a "type" = some (.str "model"))
    (hid : lookupA a "id" = some (.str idv))
    (hrd : lookupA renames (trailingSegment idv) = some rd) :
    updateAsset a = .ok (applyRename a rd) := by
  simp [updateAsset, htype, hid, hrd]

theorem updateAsset_skip (a : List (String × Json)) (idv : String)
    (htype : lookupA a "type" = some (.str "model"))
    (hid : lookupA a "id" = some (.str idv))
    (hnone : lookupA renames (trailingSegment idv) = none) :
    updateAsset a = .ok a := by
  simp [updateAsset, htype, hid, hnone]

/-- Complete case analysis of a successful loop-body run: either the asset
missed the selection criterion and came through unchanged, or it matched
some table entry and was rewritten by the four assignments. -/
theorem updateAsset_ok_cases (a b : List (String × Json)) (h : updateAsset a = .ok b) :
    (b = a ∧ (lookupA a "type" ≠ some (.str "model") ∨
       ∃ i, lookupA a "id" = some (.str i) ∧ lookupA renames (trailingSegment i) = none)) ∨
    (∃ i rd, lookupA a "type" = some (.str "model") ∧ lookupA a "id" = some (.str i) ∧
       lookupA renames (trailingSegment i) = some rd ∧ b = applyRename a rd) := by
  cases htv : lookupA a "type" with
  | none => simp only [updateAsset, htv] at h; exact absurd h (by simp)
  | some t =>
    cases t with
    | str s =>
      simp only [updateAsset, htv] at h
      by_cases hs : s = "model"
      · subst hs
        rw [if_pos rfl] at h
        cases hid : lookupA a "id" with
        | none => simp only [hid] at h; exact absurd h (by simp)
        | some idj =>
          cases idj with
          | str i =>
            simp only [hid] at h
            cases hrd : lookupA renames (trailingSegment i) with
            | none =>
              simp only [hrd] at h
              exact .inl ⟨(Except.ok.inj h).symm, .inr ⟨i, rfl, hrd⟩⟩
            | some rd =>
              simp only [hrd] at h
              exact .inr ⟨i, rd, rfl, rfl, hrd, (Except.ok.inj h).symm⟩
          | null => simp only [hid] at h; exact absurd h (by simp)
          | bool c => simp only [hid] at h; exact absurd h (by simp)
          | num c => simp only [hid] at h; exact absurd h (by simp)
          | arr c => simp only [hid] at h; exact absurd h (by simp)
          | obj c => simp only [hid] at h; exact absurd h (by simp)
      · rw [if_neg hs] at h
        refine .inl ⟨(Except.ok.inj h).symm, .inl ?_⟩
        simp [hs]
    | null => simp only [updateAsset, htv] at h; exact .inl ⟨(Except.ok.inj h).symm, .inl (by simp)⟩
    | bool c => simp only [updateAsset, htv] at h; exact .inl ⟨(Except.ok.inj h).symm, .inl (by simp)⟩
    | num c => simp only [updateAsset, htv] at h; exact .inl ⟨(Except.ok.inj h).symm, .inl (by simp)⟩
    | arr c => simp only [updateAsset, htv] at h; exact .inl ⟨(Except.ok.inj h).symm, .inl (by simp)⟩
    | obj c => simp only [updateAsset, htv] at h; exact .inl ⟨(Except.ok.inj h).symm, .inl (by simp)⟩

/-- A matching asset really changes: its rewritten `id` cannot coincide
with the old one, because replacement names are not table keys. -/
theorem applyRename_ne (a : List (String × Json)) (i : String) (rd : RenameData)
    (hid : lookupA a "id" = some (.str i))
    (hrd : lookupA renames (trailingSegment i) = some rd) :
    applyRename a rd ≠ a := by
  intro heq
  obtain ⟨hslash, hnone⟩ := renames_entry_prop _ _ hrd
  have hid' := applyRename_id a rd
  rw [heq, hid] at hid'
  have hi : i = "downloads-pack/" ++ rd.name := by
    simpa using hid'
  rw [hi, trailingSegment_pack _ hslash] at hrd
  rw [hnone] at hrd
  exact Option.noConfusion hrd

/-- A successful loop-body run changes the asset exactly when the
selection criterion holds. -/
theorem updateAsset_changed_iff (a b : List (String × Json)) (h : updateAsset a = .ok b) :
    b ≠ a ↔ (lookupA a "type" = some (.str "model") ∧
      ∃ i, lookupA a "id" = some (.str i) ∧
        (lookupA renames (trailingSegment i)).isSome) := by
  rcases updateAsset_ok_cases a b h with ⟨rfl, hnm⟩ | ⟨i, rd, htype, hid, hrd, rfl⟩
  · constructor
    · intro hne; exact absurd rfl hne
    · rintro ⟨htype, i, hid, hsome⟩
      cases hnm with
      | inl hl => exact absurd htype hl
      | inr hr =>
        obtain ⟨i0, hid0, hnone0⟩ := hr
        rw [hid0] at hid
        obtain rfl : i0 = i := by simpa using hid
        rw [hnone0] at hsome
        simp at hsome
  · constructor
    · intro _
      exact ⟨htype, i, hid, by rw [hrd]; rfl⟩
    · intro _
      exact applyRename_ne a i rd hid hrd

theorem updateAssets_ok_spec (as as' : List Json) (h : updateAssets as = .ok as') :
    as'.length = as.length ∧
    ∀ i a0, as.get? i = some a0 →
      ∃ b0, as'.get? i = some b0 ∧ updAssetJson a0 = .ok b0 := by
  induction as generalizing as' with
  | nil =>
    unfold updateAssets at h
    obtain rfl := (Except.ok.inj h)
    exact ⟨rfl, fun i a0 h0 => by simp at h0⟩
  | cons a rest ih =>
    unfold updateAssets at h
    cases ha : updAssetJson a with
    | error e => rw [ha] at h; exact absurd h (by simp)
    | ok a' =>
      rw [ha] at h
      cases hrest : updateAssets rest with
      | error e => rw [hrest] at h; exact absurd h (by simp)
      | ok rest' =>
        rw [hrest] at h
        obtain rfl := (Except.ok.inj h)
        obtain ⟨hlen, hpt⟩ := ih rest' hrest
        refine ⟨by simp [hlen], fun i a0 h0 => ?_⟩
        cases i with
        | zero =>
          obtain rfl : a = a0 := by simpa using h0
          exact ⟨a', by simp, ha⟩
        | succ j =>
          simp only [List.get?] at h0 ⊢
          exact hpt j a0 h0

theorem updateCatalog_obj_spec (kvs : List (String × Json)) (assets : List Json) (out : Json)
    (hassets : lookupA kvs "assets" = some (.arr assets))
    (h : updateCatalog (.obj kvs) = .ok out) :
    ∃ assets', updateAssets assets = .ok assets' ∧
      out = .obj (setKey kvs "assets" (.arr assets')) := by
  simp only [updateCatalog, hassets] at h
  cases hua : updateAssets assets with
  | error e => simp only [hua] at h; exact absurd h (by simp)
  | ok assets' =>
    simp only [hua] at h
    exact ⟨assets', rfl, (Except.ok.inj h).symm⟩

/-- C1.  Every asset of the input catalog whose `type` is `"model"` and
whose id's trailing segment is a rename-table key appears in the output
catalog, at the same position, with the new id
(`"downloads-pack/"` followed by the entry's name), label, description
and tags exactly as the table entry specifies. -/
theorem claim_C1
    (kvs : List (String × Json)) (assets : List Json) (out : Json)
    (hassets : lookupA kvs "assets" = some (.arr assets))
    (hupd : updateCatalog (.obj kvs) = .ok out)
    (i : Nat) (a : List (String × Json))
    (hget : assets.get? i = some (.obj a))
    (htype : lookupA a "type" = some (.str "model"))
    (idv : String) (hid : lookupA a "id" = some (.str idv))
    (rd : RenameData) (hrd : lookupA renames (trailingSegment idv) = some rd) :
    ∃ assets', out = .obj (setKey kvs "assets" (.arr assets')) ∧
      assets'.length = assets.length ∧
      assets'.get? i = some (.obj (applyRename a rd)) ∧
      lookupA (applyRename a rd) "id" = some (.str ("downloads-pack/" ++ rd.name)) ∧
      lookupA (applyRename a rd) "label" = some (.str rd.label) ∧
      lookupA (applyRename a rd) "description" = some (.str rd.description) ∧
      lookupA (applyRename a rd) "tags" = some (.arr (rd.tags.map Json.str)) := by
  obtain ⟨assets', hua, rfl⟩ := updateCatalog_obj_spec kvs assets out hassets hupd
  obtain ⟨hlen, hpt⟩ := updateAssets_ok_spec assets assets' hua
  obtain ⟨b0, hb0, hupd0⟩ := hpt i _ hget
  have hm := updateAsset_matched a idv rd htype hid hrd
  have hb : b0 = .obj (applyRename a rd) := by
    simp only [updAssetJson, hm] at hupd0
    exact (Except.ok.inj hupd0).symm
  exact ⟨assets', rfl, hlen, hb ▸ hb0, applyRename_id a rd, applyRename_label a rd,
    applyRename_description a rd, applyRename_tags a rd⟩

/-- C2.  Every asset of the input catalog that misses the rename
criterion (its `type` is not the string `"model"`, or its id's trailing
segment is not a table key) appears in the output catalog, at the same
position, unchanged in every field. -/
theorem claim_C2
    (kvs : List (String × Json)) (assets : List Json) (out : Json)
    (hassets : lookupA kvs "assets" = some (.arr assets))
    (hupd : updateCatalog (.obj kvs) = .ok out)
    (i : Nat) (a : List (String × Json))
    (hget : assets.get? i = some (.obj a))
    (hnm : lookupA a "type" ≠ some (.str "model") ∨
      ∀ idv, lookupA a "id" = some (.str idv) →
        lookupA renames (trailingSegment idv) = none) :
    ∃ assets', out = .obj (setKey kvs "assets" (.arr assets')) ∧
      assets'.get? i = some (.obj a) := by
  obtain ⟨assets', hua, rfl⟩ := updateCatalog_obj_spec kvs assets out hassets hupd
  obtain ⟨hlen, hpt⟩ := updateAssets_ok_spec assets assets' hua
  obtain ⟨b0, hb0, hupd0⟩ := hpt i _ hget
  cases hu : updateAsset a with
  | error e => simp only [updAssetJson, hu] at hupd0; exact absurd hupd0 (by simp)
  | ok b =>
    simp only [updAssetJson, hu] at hupd0
    obtain rfl := (Except.ok.inj hupd0)
    rcases updateAsset_ok_cases a b hu with ⟨rfl, _⟩ | ⟨i0, rd, htype, hid, hrd, rfl⟩
    · exact ⟨assets', rfl, hb0⟩
    · cases hnm with
      | inl hl => exact absurd htype hl
      | inr hr => rw [hr i0 hid] at hrd; exact Option.noConfusion hrd

/-- C3.  A successful run rewrites an asset exactly when its `type` is
`"model"` and its id's trailing segment is a rename-table key; and the
selection outcome depends on no field other than `type` and `id`. -/
theorem claim_C3 (a a' : List (String × Json)) (h : updateAsset a = .ok a') :
    (a' ≠ a ↔ (lookupA a "type" = some (.str "model") ∧
      ∃ i, lookupA a "id" = some (.str i) ∧
        (lookupA renames (trailingSegment i)).isSome)) ∧
    (∀ b b', updateAsset b = .ok b' →
      lookupA b "type" = lookupA a "type" → lookupA b "id" = lookupA a "id" →
      (b' ≠ b ↔ a' ≠ a)) := by
  refine ⟨updateAsset_changed_iff a a' h, fun b b' hb hty hid => ?_⟩
  rw [updateAsset_changed_iff b b' hb, updateAsset_changed_iff a a' h, hty, hid]

/-- C5.  A successful run of the update loop visits every asset of the
list exactly once, in order: the output list has the same length, its
`i`-th element is the result of the loop body on the `i`-th input asset,
and a matching asset's fields are rewritten by a single application of
its table entry. -/
theorem claim_C5 (assets assets' : List Json) (h : updateAssets assets = .ok assets') :
    assets'.length = assets.length ∧
    (∀ i a0, assets.get? i = some a0 →
      ∃ b0, assets'.get? i = some b0 ∧ updAssetJson a0 = .ok b0) ∧
    (∀ i a idv rd, assets.get? i = some (.obj a) →
      lookupA a "type" = some (.str "model") →
      lookupA a "id" = some (.str idv) →
      lookupA renames (trailingSegment idv) = some rd →
      assets'.get? i = some (.obj (applyRename a rd))) := by
  obtain ⟨hlen, hpt⟩ := updateAssets_ok_spec assets assets' h
  refine ⟨hlen, hpt, fun i a idv rd hget htype hid hrd => ?_⟩
  obtain ⟨b0, hb0, hupd0⟩ := hpt i _ hget
  simp only [updAssetJson, updateAsset_matched a idv rd htype hid hrd] at hupd0
  obtain rfl := (Except.ok.inj hupd0)
  exact hb0

/-- C8.  A matching asset's new id is `"downloads-pack/"` followed by the
table entry's name, whatever prefix stood before the trailing segment of
the original id: an asset filed under any other pack prefix is moved
under `downloads-pack`. -/
theorem claim_C8 (a : List (String × Json)) (p k : String) (rd : RenameData)
    (htype : lookupA a "type" = some (.str "model"))
    (hid : lookupA a "id" = some (.str (p ++ "/" ++ k)))
    (hk : '/' ∉ k.data)
    (hrd : lookupA renames k = some rd) :
    updateAsset a = .ok (applyRename a rd) ∧
    lookupA (applyRename a rd) "id" = some (.str ("downloads-pack/" ++ rd.name)) := by
  have ht := trailingSegment_slash_append p k hk
  exact ⟨updateAsset_matched a _ rd htype hid (by rw [ht]; exact hrd),
    applyRename_id a rd⟩

theorem updateAsset_idem (a b : List (String × Json)) (h : updateAsset a = .ok b) :
    updateAsset b = .ok b := by
  rcases updateAsset_ok_cases a b h with ⟨rfl, _⟩ | ⟨i, rd, htype, hid, hrd, rfl⟩
  · exact h
  · obtain ⟨hslash, hnone⟩ := renames_entry_prop _ _ hrd
    have htype' : lookupA (applyRename a rd) "type" = some (.str "model") := by
      rw [applyRename_other a rd "type" (by decide) (by decide) (by decide) (by decide)]
      exact htype
    have htr : trailingSegment ("downloads-pack/" ++ rd.name) = rd.name :=
      trailingSegment_pack _ hslash
    refine updateAsset_skip _ ("downloads-pack/" ++ rd.name) htype' (applyRename_id a rd) ?_
    rw [htr]
    exact hnone

theorem updAssetJson_idem (x y : Json) (h : updAssetJson x = .ok y) :
    updAssetJson y = .ok y := by
  cases x with
  | obj a =>
    cases hu : updateAsset a with
    | error e => simp only [updAssetJson, hu] at h; exact absurd h (by simp)
    | ok b =>
      simp only [updAssetJson, hu] at h
      obtain rfl := (Except.ok.inj h)
      simp only [updAssetJson, updateAsset_idem a b hu]
  | null => exact absurd h (by simp [updAssetJson])
  | bool c => exact absurd h (by simp [updAssetJson])
  | num c => exact absurd h (by simp [updAssetJson])
  | str c => exact absurd h (by simp [updAssetJson])
  | arr c => exact absurd h (by simp [updAssetJson])

theorem updateAssets_idem (as as' : List Json) (h : updateAssets as = .ok as') :
    updateAssets as' = .ok as' := by
  induction as generalizing as' with
  | nil =>
    unfold updateAssets at h
    obtain rfl := (Except.ok.inj h)
    rfl
  | cons a rest ih =>
    unfold updateAssets at h
    cases ha : updAssetJson a with
    | error e => rw [ha] at h; exact absurd h (by simp)
    | ok a' =>
      rw [ha] at h
      cases hrest : updateAssets rest with
      | error e => rw [hrest] at h; exact absurd h (by simp)
      | ok rest' =>
        rw [hrest] at h
        obtain rfl := (Except.ok.inj h)
        unfold updateAssets
        rw [updAssetJson_idem a a' ha, ih rest' hrest]

/-- C9.  The catalog update is idempotent: running the update phase on an
already-updated catalog reproduces it unchanged, because no replacement
name is itself a rename-table key. -/
theorem claim_C9 (c c' : Json) (h : updateCatalog c = .ok c') :
    updateCatalog c' = .ok c' := by
  cases c with
  | obj kvs =>
    cases hak : lookupA kvs "assets" with
    | none => simp only [updateCatalog, hak] at h; exact absurd h (by simp)
    | some v =>
      cases v with
      | arr assets =>
        simp only [updateCatalog, hak] at h
        cases hua : updateAssets assets with
        | error e => simp only [hua] at h; exact absurd h (by simp)
        | ok as' =>
          simp only [hua] at h
          obtain rfl := (Except.ok.inj h)
          simp only [updateCatalog, lookupA_setKey_self,
            updateAssets_idem assets as' hua, setKey_setKey]
      | null => simp only [updateCatalog, hak] at h; exact absurd h (by simp)
      | bool c0 => simp only [updateCatalog, hak] at h; exact absurd h (by simp)
      | num c0 => simp only [updateCatalog, hak] at h; exact absurd h (by simp)
      | str c0 => simp only [updateCatalog, hak] at h; exact absurd h (by simp)
      | obj c0 => simp only [updateCatalog, hak] at h; exact absurd h (by simp)
  | null => exact absurd h (by simp [updateCatalog])
  | bool c0 => exact absurd h (by simp [updateCatalog])
  | num c0 => exact absurd h (by simp [updateCatalog])
  | str c0 => exact absurd h (by simp [updateCatalog])
  | arr c0 => exact absurd h (by simp [updateCatalog])

/-- C10.  A matching asset keeps every field other than `id`, `label`,
`description` and `tags` at its input value; in particular its `type`
still reads `"model"` in the output. -/
theorem claim_C10 (a a' : List (String × Json)) (idv : String) (rd : RenameData)
    (htype : lookupA a "type" = some (.str "model"))
    (hid : lookupA a "id" = some (.str idv))
    (hrd : lookupA renames (trailingSegment idv) = some rd)
    (h : updateAsset a = .ok a') :
    lookupA a' "type" = some (.str "model") ∧
    ∀ k, k ≠ "id" → k ≠ "label" → k ≠ "description" → k ≠ "tags" →
      lookupA a' k = lookupA a k := by
  have hm := updateAsset_matched a idv rd htype hid hrd
  rw [hm] at h
  obtain rfl := (Except.ok.inj h)
  constructor
  · rw [applyRename_other a rd "type" (by decide) (by decide) (by decide) (by decide)]
    exact htype
  · exact fun k h1 h2 h3 h4 => applyRename_other a rd k h1 h2 h3 h4

/-! ## The serializer: `json.dump(catalog, f, indent=2)`

Python's encoder with `indent=2` and the default `ensure_ascii=True`:
`null`/`true`/`false`, integer `repr`, strings in double quotes with
`"`, `\`, and everything outside `0x20..0x7e` escaped (short escapes for
the seven classics, `\uXXXX` otherwise, surrogate pairs above the BMP),
containers spread over lines with two more spaces per nesting level and
`","` / `": "` separators.  Floats are outside the model: `Json.num`
carries integers only. -/

/-- An opening brace character (`0x7b`). -/
def openBrace : Char := Char.ofNat 123

/-- A closing brace character (`0x7d`). -/
def closeBrace : Char := Char.ofNat 125

/-- Decimal digit character: `'0'` through `'9'`. -/
def isDigitChar (c : Char) : Bool := decide (48 ≤ c.toNat) && decide (c.toNat ≤ 57)

/-- Lowercase hexadecimal digit for a value below 16 (Python's `'%04x'`). -/
def hexDigitChar (n : Nat) : Char :=
  if n < 10 then Char.ofNat (48 + n) else Char.ofNat (87 + n)

/-- Four lowercase hex digits of a value below `0x10000`. -/
def hex4 (n : Nat) : List Char :=
  [hexDigitChar (n / 4096 % 16), hexDigitChar (n / 256 % 16),
   hexDigitChar (n / 16 % 16), hexDigitChar (n % 16)]

/-- Python `json`'s `py_encode_basestring_ascii` on one character:
backslash and quote get two-character escapes, printable ASCII passes
through, the seven classic controls get short escapes, everything else
becomes `\uXXXX` (a surrogate pair beyond the BMP). -/
def escapeChar (c : Char) : List Char :=
  if c = '\\' then ['\\', '\\']
  else if c = '"' then ['\\', '"']
  else if 32 ≤ c.toNat ∧ c.toNat ≤ 126 then [c]
  else if c.toNat = 8 then ['\\', 'b']
  else if c.toNat = 12 then ['\\', 'f']
  else if c.toNat = 10 then ['\\', 'n']
  else if c.toNat = 13 then ['\\', 'r']
  else if c.toNat = 9 then ['\\', 't']
  else if c.toNat < 65536 then '\\' :: 'u' :: hex4 c.toNat
  else
    ('\\' :: 'u' :: hex4 (55296 + (c.toNat - 65536) / 1024)) ++
    ('\\' :: 'u' :: hex4 (56320 + (c.toNat - 65536) % 1024))

/-- Escape a whole string body. -/
def escapeList : List Char → List Char
  | [] => []
  | c :: rest => escapeChar c ++ escapeList rest

/-- Decimal digit character of a value below 10. -/
def digitChar (n : Nat) : Char := Char.ofNat (48 + n)

/-- Decimal digits of a natural number, most significant first. -/
def natDigits (n : Nat) : List Char :=
  if n < 10 then [digitChar n]
  else natDigits (n / 10) ++ [digitChar (n % 10)]
decreasing_by exact Nat.div_lt_self (by omega) (by omega)

/-- Python `repr` of an integer. -/
def intChars (n : Int) : List Char :=
  if n < 0 then '-' :: natDigits (-n).toNat else natDigits n.toNat

/-- The newline-plus-indentation that `indent=2` inserts before an item
at nesting level `lvl`. -/
def indentChars (lvl : Nat) : List Char :=
  '\n' :: List.replicate (2 * lvl) ' '

/-- Characters of the `null` keyword. -/
def nullChars : List Char := ['n', 'u', 'l', 'l']

/-- Characters of the `true` keyword. -/
def trueChars : List Char := ['t', 'r', 'u', 'e']

/-- Characters of the `false` keyword. -/
def falseChars : List Char := ['f', 'a', 'l', 's', 'e']

mutual

/-- Serialize one JSON value at nesting level `lvl`. -/
def serJson (lvl : Nat) : Json → List Char
  | .null => nullChars
  | .bool true => trueChars
  | .bool false => falseChars
  | .num n => intChars n
  | .str s => '"' :: (escapeList s.data ++ ['"'])
  | .arr [] => ['[', ']']
  | .arr (x :: xs) =>
    '[' :: (indentChars (lvl + 1) ++ serJson (lvl + 1) x ++
      serArrItems (lvl + 1) xs ++ indentChars lvl ++ [']'])
  | .obj [] => [openBrace, closeBrace]
  | .obj (p :: ps) =>
    openBrace :: (indentChars (lvl + 1) ++ serObjEntry (lvl + 1) p ++
      serObjItems (lvl + 1) ps ++ indentChars lvl ++ [closeBrace])

/-- Serialize the second and later array items, each preceded by a comma
and a fresh indented line. -/
def serArrItems (lvl : Nat) : List Json → List Char
  | [] => []
  | x :: xs => ',' :: (indentChars lvl ++ serJson lvl x ++ serArrItems lvl xs)

/-- Serialize one `"key": value` object entry. -/
def serObjEntry (lvl : Nat) : String × Json → List Char
  | (k, v) => '"' :: (escapeList k.data ++ ['"', ':', ' '] ++ serJson lvl v)

/-- Serialize the second and later object entries. -/
def serObjItems (lvl : Nat) : List (String × Json) → List Char
  | [] => []
  | p :: ps => ',' :: (indentChars lvl ++ serObjEntry lvl p ++ serObjItems lvl ps)

end

/-- The characters `json.dump(c, f, indent=2)` writes. -/
def dumps (c : Json) : List Char := serJson 0 c

/-! ## The deserializer: `json.load` / `json.loads`

Python's strict decoder: whitespace is ` \t\n\r`; strings reject raw
control characters and decode the eight short escapes and `\uXXXX`
(joining a surrogate pair when a high surrogate is followed by a low
one; a lone surrogate, which `Char` cannot carry, fails in the model);
numbers are `-?(0|[1-9][0-9]*)` — a following `.`, `e` or `E` would make
CPython build a float, which is outside the model, so the model fails
there; objects are built like `dict(pairs)`, later duplicate keys
overwriting earlier ones in place.  The recursion fuel is spent one unit
per nesting step. -/

/-- JSON whitespace (`json.decoder.WHITESPACE`). -/
def isWsChar (c : Char) : Bool := c = ' ' || c = '\t' || c = '\n' || c = '\r'

/-- Drop leading JSON whitespace. -/
def skipWs : List Char → List Char
  | [] => []
  | c :: rest => if isWsChar c then skipWs rest else c :: rest

/-- Value of one hexadecimal digit, either case. -/
def hexVal (c : Char) : Option Nat :=
  if 48 ≤ c.toNat ∧ c.toNat ≤ 57 then some (c.toNat - 48)
  else if 97 ≤ c.toNat ∧ c.toNat ≤ 102 then some (c.toNat - 87)
  else if 65 ≤ c.toNat ∧ c.toNat ≤ 70 then some (c.toNat - 55)
  else none

/-- The eight short escapes `json.decoder.BACKSLASH` accepts. -/
def escDecode (e : Char) : Option Char :=
  if e = '"' then some '"'
  else if e = '\\' then some '\\'
  else if e = '/' then some '/'
  else if e = 'b' then some (Char.ofNat 8)
  else if e = 'f' then some (Char.ofNat 12)
  else if e = 'n' then some '\n'
  else if e = 'r' then some '\r'
  else if e = 't' then some '\t'
  else none

mutual

/-- Python `py_scanstring`, positioned just after the opening quote:
returns the decoded body and the characters after the closing quote.
Strict mode rejects raw control characters. -/
def parseStringBody : List Char → Option (List Char × List Char)
  | [] => none
  | c :: rest =>
    if c = '"' then some ([], rest)
    else if c = '\\' then parseEsc rest
    else if c.toNat < 32 then none
    else
      match parseStringBody rest with
      | some (cs, r) => some (c :: cs, r)
      | none => none
termination_by s => s.length

/-- Decode what follows a backslash. -/
def parseEsc : List Char → Option (List Char × List Char)
  | [] => none
  | e :: rest =>
    if e = 'u' then parseHexEsc rest
    else
      match escDecode e with
      | some d =>
        match parseStringBody rest with
        | some (cs, r) => some (d :: cs, r)
        | none => none
      | none => none
termination_by s => s.length

/-- Decode the four hex digits of a `\uXXXX` escape; a high surrogate
must be completed by a low one (a lone surrogate does not fit a `Char`
and fails in the model, where CPython would keep it). -/
def parseHexEsc : List Char → Option (List Char × List Char)
  | c1 :: c2 :: c3 :: c4 :: more =>
    match hexVal c1, hexVal c2, hexVal c3, hexVal c4 with
    | some d1, some d2, some d3, some d4 =>
      let n := ((d1 * 16 + d2) * 16 + d3) * 16 + d4
      if 55296 ≤ n ∧ n < 56320 then parseLowSur n more
      else if 56320 ≤ n ∧ n < 57344 then none
      else
        match parseStringBody more with
        | some (cs, r) => some (Char.ofNat n :: cs, r)
        | none => none
    | _, _, _, _ => none
  | _ => none
termination_by s => s.length

/-- Decode the `\uXXXX` low surrogate completing high surrogate `n` and
join the pair. -/
def parseLowSur (n : Nat) : List Char → Option (List Char × List Char)
  | b :: u :: c1 :: c2 :: c3 :: c4 :: rest =>
    if b = '\\' ∧ u = 'u' then
      match hexVal c1, hexVal c2, hexVal c3, hexVal c4 with
      | some f1, some f2, some f3, some f4 =>
        let m := ((f1 * 16 + f2) * 16 + f3) * 16 + f4
        if 56320 ≤ m ∧ m < 57344 then
          match parseStringBody rest with
          | some (cs, r) =>
            some (Char.ofNat (65536 + (n - 55296) * 1024 + (m - 56320)) :: cs, r)
          | none => none
        else none
      | _, _, _, _ => none
    else none
  | _ => none
termination_by s => s.length

end

/-- Consume a run of decimal digits, accumulating their value. -/
def parseDigits (acc : Nat) : List Char → Nat × List Char
  | [] => (acc, [])
  | c :: rest =>
    if isDigitChar c then parseDigits (acc * 10 + (c.toNat - 48)) rest
    else (acc, c :: rest)

/-- The integer part of Python's `NUMBER_RE`: `0`, or a nonzero digit
followed by any digits. -/
def parseNat : List Char → Option (Nat × List Char)
  | [] => none
  | c :: rest =>
    if c = '0' then some (0, rest)
    else if 49 ≤ c.toNat ∧ c.toNat ≤ 57 then some (parseDigits (c.toNat - 48) rest)
    else none

/-- Where `NUMBER_RE` would go on to a fraction or exponent CPython
builds a float; floats are outside the model, so fail there. -/
def fracGuard : List Char → Option (List Char)
  | [] => some []
  | c :: rest =>
    if c = '.' || c = 'e' || c = 'E' then none else some (c :: rest)

/-- Parse an integer literal (`-?(0|[1-9][0-9]*)`, no fraction, no
exponent). -/
def parseNumber : List Char → Option (Int × List Char)
  | [] => none
  | c :: rest =>
    if c = '-' then
      match parseNat rest with
      | some (n, r) =>
        match fracGuard r with
        | some r2 => some (-(n : Int), r2)
        | none => none
      | none => none
    else
      match parseNat (c :: rest) with
      | some (n, r) =>
        match fracGuard r with
        | some r2 => some ((n : Int), r2)
        | none => none
      | none => none

/-- `dict(pairs)`: fold the parsed key/value pairs into a dict with
Python's assignment semantics (later duplicate keys overwrite the value
in place). -/
def objFromPairsAux (d : List (String × Json)) : List (String × Json) → List (String × Json)
  | [] => d
  | (k, v) :: ps => objFromPairsAux (setKey d k v) ps

mutual

/-- Parse one JSON value after skipping leading whitespace.  One unit of
fuel pays for one nesting step. -/
def parseValue : Nat → List Char → Option (Json × List Char)
  | 0, _ => none
  | fuel + 1, s =>
    match skipWs s with
    | [] => none
    | c :: rest =>
      if c = 'n' then
        match rest with
        | 'u' :: 'l' :: 'l' :: r => some (.null, r)
        | _ => none
      else if c = 't' then
        match rest with
        | 'r' :: 'u' :: 'e' :: r => some (.bool true, r)
        | _ => none
      else if c = 'f' then
        match rest with
        | 'a' :: 'l' :: 's' :: 'e' :: r => some (.bool false, r)
        | _ => none
      else if c = '"' then
        match parseStringBody rest with
        | some (cs, r) => some (.str ⟨cs⟩, r)
        | none => none
      else if c = '[' then
        match skipWs rest with
        | [] => none
        | c2 :: r2 =>
          if c2 = ']' then some (.arr [], r2)
          else
            match parseArrItems fuel (c2 :: r2) with
            | some (vs, r3) => some (.arr vs, r3)
            | none => none
      else if c = openBrace then
        match skipWs rest with
        | [] => none
        | c2 :: r2 =>
          if c2 = closeBrace then some (.obj [], r2)
          else
            match parseObjItems fuel (c2 :: r2) with
            | some (ps, r3) => some (.obj (objFromPairsAux [] ps), r3)
            | none => none
      else if c = '-' || isDigitChar c then
        match parseNumber (c :: rest) with
        | some (n, r) => some (.num n, r)
        | none => none
      else none

/-- Parse the items of a non-empty array, after the opening bracket. -/
def parseArrItems : Nat → List Char → Option (List Json × List Char)
  | 0, _ => none
  | fuel + 1, s =>
    match parseValue fuel s with
    | some (v, r) =>
      match skipWs r with
      | [] => none
      | c :: r2 =>
        if c = ',' then
          match parseArrItems fuel r2 with
          | some (vs, r3) => some (v :: vs, r3)
          | none => none
        else if c = ']' then some ([v], r2)
        else none
    | none => none

/-- Parse the entries of a non-empty object, after the opening brace:
quoted key, colon, value, then a comma or the closing brace. -/
def parseObjItems : Nat → List Char → Option (List (String × Json) × List Char)
  | 0, _ => none
  | fuel + 1, s =>
    match skipWs s with
    | [] => none
    | c0 :: r =>
      if c0 = '"' then
        match parseStringBody r with
        | some (kcs, r2) =>
          match skipWs r2 with
          | [] => none
          | c1 :: r3 =>
            if c1 = ':' then
              match parseValue fuel r3 with
              | some (v, r4) =>
                match skipWs r4 with
                | [] => none
                | c :: r5 =>
                  if c = ',' then
                    match parseObjItems fuel r5 with
                    | some (ps, r6) => some ((⟨kcs⟩, v) :: ps, r6)
                    | none => none
                  else if c = closeBrace then some ([(⟨kcs⟩, v)], r5)
                  else none
              | none => none
            else none
        | none => none
      else none

end

/-- Python `json.loads`: parse one value and insist nothing but
whitespace follows (`Extra data` otherwise). -/
def loads (s : List Char) : Option Json :=
  match parseValue (s.length + 1) s with
  | some (v, rest) => if skipWs rest = [] then some v else none
  | none => none

/-- Keys of an object are pairwise distinct (true of every dict). -/
def nodupKeys : List (String × Json) → Bool
  | [] => true
  | (k, _) :: ps => (lookupA ps k).isNone && nodupKeys ps

mutual

/-- A JSON value every Python object reaching `json.dump` satisfies:
each object's keys are pairwise distinct. -/
def Json.wf : Json → Bool
  | .null => true
  | .bool _ => true
  | .num _ => true
  | .str _ => true
  | .arr xs => Json.wfList xs
  | .obj kvs => nodupKeys kvs && Json.wfObj kvs

/-- `Json.wf` on every element of an array. -/
def Json.wfList : List Json → Bool
  | [] => true
  | x :: xs => Json.wf x && Json.wfList xs

/-- `Json.wf` on every value of an object. -/
def Json.wfObj : List (String × Json) → Bool
  | [] => true
  | (_, v) :: ps => Json.wf v && Json.wfObj ps

end

/-! ## Round-trip: character-level lemmas -/

/-- Every character of a list is JSON whitespace. -/
def AllWs (ws : List Char) : Prop := ∀ c ∈ ws, isWsChar c = true

theorem skipWs_append_ws (ws t : List Char) (h : AllWs ws) :
    skipWs (ws ++ t) = skipWs t := by
  induction ws with
  | nil => rfl
  | cons c r ih =>
    have hc : isWsChar c = true := h c (by simp)
    simp [skipWs, hc, ih (fun d hd => h d (by simp [hd]))]

theorem skipWs_cons_not_ws (c : Char) (t : List Char) (h : isWsChar c = false) :
    skipWs (c :: t) = c :: t := by
  simp [skipWs, h]

theorem allWs_indentChars (lvl : Nat) : AllWs (indentChars lvl) := by
  intro c hc
  simp [indentChars] at hc
  rcases hc with rfl | ⟨_, rfl⟩ <;> decide

theorem skipWs_indent (lvl : Nat) (t : List Char) :
    skipWs (indentChars lvl ++ t) = skipWs t :=
  skipWs_append_ws _ _ (allWs_indentChars lvl)

/-- A scalar value's code point avoids the surrogate block and is below
`0x110000`. -/
theorem char_valid_ranges (c : Char) :
    c.toNat < 55296 ∨ (57344 ≤ c.toNat ∧ c.toNat < 1114112) := by
  have h := c.valid
  unfold UInt32.isValidChar at h
  unfold Nat.isValidChar at h
  have he : c.toNat = c.val.toNat := rfl
  rcases h with h1 | ⟨h2, h3⟩
  · left; omega
  · right; omega

theorem hexVal_hexDigitChar : ∀ d, d < 16 → hexVal (hexDigitChar d) = some d := by
  decide

/-- Reading back the four hex digits of `n < 0x10000` recovers `n`. -/
theorem parseHexEsc_hex4 (n : Nat) (hn : n < 65536) (t : List Char) :
    parseHexEsc (hex4 n ++ t) =
      if 55296 ≤ n ∧ n < 56320 then parseLowSur n t
      else if 56320 ≤ n ∧ n < 57344 then none
      else
        match parseStringBody t with
        | some (cs, r) => some (Char.ofNat n :: cs, r)
        | none => none := by
  have e1 := hexVal_hexDigitChar (n / 4096 % 16) (by omega)
  have e2 := hexVal_hexDigitChar (n / 256 % 16) (by omega)
  have e3 := hexVal_hexDigitChar (n / 16 % 16) (by omega)
  have e4 := hexVal_hexDigitChar (n % 16) (by omega)
  simp only [hex4, List.cons_append, List.nil_append]
  rw [parseHexEsc]
  simp only [e1, e2, e3, e4]
  rw [show ((n / 4096 % 16 * 16 + n / 256 % 16) * 16 + n / 16 % 16) * 16 +
      n % 16 = n from by omega]

/-- Reading back `\u` plus the four hex digits of a low surrogate joins
the pair. -/
theorem parseLowSur_hex4 (n m : Nat) (hm : m < 65536) (t : List Char) :
    parseLowSur n ('\\' :: 'u' :: (hex4 m ++ t)) =
      if 56320 ≤ m ∧ m < 57344 then
        match parseStringBody t with
        | some (cs, r) =>
          some (Char.ofNat (65536 + (n - 55296) * 1024 + (m - 56320)) :: cs, r)
        | none => none
      else none := by
  have e1 := hexVal_hexDigitChar (m / 4096 % 16) (by omega)
  have e2 := hexVal_hexDigitChar (m / 256 % 16) (by omega)
  have e3 := hexVal_hexDigitChar (m / 16 % 16) (by omega)
  have e4 := hexVal_hexDigitChar (m % 16) (by omega)
  simp only [hex4, List.cons_append, List.nil_append]
  rw [parseLowSur]
  rw [if_pos (show ('\\' : Char) = '\\' ∧ ('u' : Char) = 'u' from ⟨rfl, rfl⟩)]
  simp only [e1, e2, e3, e4]
  rw [show ((m / 4096 % 16 * 16 + m / 256 % 16) * 16 + m / 16 % 16) * 16 +
      m % 16 = m from by omega]

/-- `parseStringBody` undoes `escapeChar` on the head character. -/
theorem parseStringBody_escape (s : List Char) :
    ∀ rest, parseStringBody (escapeList s ++ '"' :: rest) = some (s, rest) := by
  induction s with
  | nil =>
    intro rest
    simp [escapeList, parseStringBody]
  | cons c cs ih =>
    intro rest
    rw [show escapeList (c :: cs) = escapeChar c ++ escapeList cs from rfl,
      List.append_assoc]
    have hval := char_valid_ranges c
    by_cases h1 : c = '\\'
    · subst h1
      rw [show escapeChar '\\' = ['\\', '\\'] from by decide]
      simp [parseStringBody, parseEsc, escDecode, ih rest]
    · by_cases h2 : c = '"'
      · subst h2
        rw [show escapeChar '"' = ['\\', '"'] from by decide]
        simp [parseStringBody, parseEsc, escDecode, ih rest]
      · by_cases h3 : 32 ≤ c.toNat ∧ c.toNat ≤ 126
        · rw [show escapeChar c = [c] from by simp [escapeChar, h1, h2, h3]]
          simp [parseStringBody, h1, h2, show ¬ c.toNat < 32 from by omega, ih rest]
        · by_cases h8 : c.toNat = 8
          · have hc : c = Char.ofNat 8 := by rw [← h8, Char.ofNat_toNat]
            subst hc
            rw [show escapeChar (Char.ofNat 8) = ['\\', 'b'] from by decide]
            simp [parseStringBody, parseEsc, escDecode, ih rest]
          · by_cases h12 : c.toNat = 12
            · have hc : c = Char.ofNat 12 := by rw [← h12, Char.ofNat_toNat]
              subst hc
              rw [show escapeChar (Char.ofNat 12) = ['\\', 'f'] from by decide]
              simp [parseStringBody, parseEsc, escDecode, ih rest]
            · by_cases h10 : c.toNat = 10
              · have hc : c = Char.ofNat 10 := by rw [← h10, Char.ofNat_toNat]
                subst hc
                rw [show escapeChar (Char.ofNat 10) = ['\\', 'n'] from by decide]
                simp [parseStringBody, parseEsc, escDecode, ih rest]
              · by_cases h13 : c.toNat = 13
                · have hc : c = Char.ofNat 13 := by rw [← h13, Char.ofNat_toNat]
                  subst hc
                  rw [show escapeChar (Char.ofNat 13) = ['\\', 'r'] from by decide]
                  simp [parseStringBody, parseEsc, escDecode, ih rest]
                · by_cases h9 : c.toNat = 9
                  · have hc : c = Char.ofNat 9 := by rw [← h9, Char.ofNat_toNat]
                    subst hc
                    rw [show escapeChar (Char.ofNat 9) = ['\\', 't'] from by decide]
                    simp [parseStringBody, parseEsc, escDecode, ih rest]
                  · by_cases h16 : c.toNat < 65536
                    · rw [show escapeChar c = '\\' :: 'u' :: hex4 c.toNat from by
                        simp [escapeChar, h1, h2, h3, h8, h12, h10, h13, h9, h16]]
                      have hns1 : ¬(55296 ≤ c.toNat ∧ c.toNat < 56320) := by
                        rcases hval with h | h <;> omega
                      have hns2 : ¬(56320 ≤ c.toNat ∧ c.toNat < 57344) := by
                        rcases hval with h | h <;> omega
                      simp only [List.cons_append]
                      rw [parseStringBody]
                      simp only [show (('\\' : Char) = '"') = False from by simp,
                        if_false, if_pos rfl]
                      rw [parseEsc]
                      simp only [if_pos rfl]
                      rw [parseHexEsc_hex4 c.toNat (by omega)]
                      rw [if_neg hns1, if_neg hns2]
                      simp [ih rest, Char.ofNat_toNat]
                    · have hbig1 : 65536 ≤ c.toNat := by omega
                      have hbig2 : c.toNat < 1114112 := by
                        rcases hval with h | h <;> omega
                      rw [show escapeChar c =
                          ('\\' :: 'u' :: hex4 (55296 + (c.toNat - 65536) / 1024)) ++
                          ('\\' :: 'u' :: hex4 (56320 + (c.toNat - 65536) % 1024)) from by
                        simp [escapeChar, h1, h2, h3, h8, h12, h10, h13, h9, h16]]
                      have hhi : 55296 + (c.toNat - 65536) / 1024 < 56320 := by omega
                      have hlo : 56320 + (c.toNat - 65536) % 1024 < 57344 := by
                        have := Nat.mod_lt (c.toNat - 65536) (show 0 < 1024 by omega)
                        omega
                      have hjoin :
                          65536 + (55296 + (c.toNat - 65536) / 1024 - 55296) * 1024 +
                            (56320 + (c.toNat - 65536) % 1024 - 56320) = c.toNat := by
                        omega
                      simp only [List.cons_append, List.nil_append, List.append_assoc]
                      rw [parseStringBody]
                      simp only [show (('\\' : Char) = '"') = False from by simp,
                        if_false, if_pos rfl]
                      rw [parseEsc]
                      simp only [if_pos rfl]
                      rw [parseHexEsc_hex4 (55296 + (c.toNat - 65536) / 1024) (by omega)]
                      rw [if_pos (show 55296 ≤ 55296 + (c.toNat - 65536) / 1024 ∧
                        55296 + (c.toNat - 65536) / 1024 < 56320 from ⟨by omega, hhi⟩)]
                      rw [parseLowSur_hex4 _ (56320 + (c.toNat - 65536) % 1024) (by omega)]
                      rw [if_pos (show 56320 ≤ 56320 + (c.toNat - 65536) % 1024 ∧
                        56320 + (c.toNat - 65536) % 1024 < 57344 from ⟨by omega, hlo⟩)]
                      rw [hjoin]
                      simp [ih rest, Char.ofNat_toNat]

/-! ## Round-trip: numbers -/

/-- Characters after which a serialized number is sure to have ended:
not a digit, and not the start of a fraction or exponent. -/
def numStop : List Char → Bool
  | [] => true
  | c :: _ => !(isDigitChar c || c = '.' || c = 'e' || c = 'E')

theorem digitChar_toNat (n : Nat) (h : n < 10) : (digitChar n).toNat = 48 + n := by
  unfold digitChar Char.ofNat
  rw [dif_pos (show Nat.isValidChar (48 + n) from Or.inl (by omega))]
  rfl

theorem natDigits_digits :
    ∀ n, ∀ c ∈ natDigits n, 48 ≤ c.toNat ∧ c.toNat ≤ 57 := by
  intro n
  induction n using Nat.strong_induction_on with
  | _ n ih =>
    rw [natDigits]
    split_ifs with h
    · intro c hc
      simp at hc
      subst hc
      rw [digitChar_toNat n h]
      omega
    · intro c hc
      rw [List.mem_append] at hc
      rcases hc with hc | hc
      · exact ih (n / 10) (Nat.div_lt_self (by omega) (by omega)) c hc
      · simp at hc
        subst hc
        have hm : n % 10 < 10 := Nat.mod_lt _ (by omega)
        rw [digitChar_toNat _ hm]
        omega

theorem natDigits_head :
    ∀ n, 1 ≤ n → ∃ c t, natDigits n = c :: t ∧ 49 ≤ c.toNat ∧ c.toNat ≤ 57 := by
  intro n
  induction n using Nat.strong_induction_on with
  | _ n ih =>
    intro h1
    rw [natDigits]
    split_ifs with h
    · exact ⟨digitChar n, [], rfl, by rw [digitChar_toNat n h]; omega⟩
    · obtain ⟨c, t, hct, hc⟩ := ih (n / 10) (Nat.div_lt_self (by omega) (by omega))
        (by omega)
      exact ⟨c, t ++ [digitChar (n % 10)], by rw [hct]; rfl, hc⟩

theorem natDigits_foldl :
    ∀ n acc, (natDigits n).foldl (fun a c => a * 10 + (c.toNat - 48)) acc =
      acc * 10 ^ (natDigits n).length + n := by
  intro n
  induction n using Nat.strong_induction_on with
  | _ n ih =>
    intro acc
    rw [natDigits]
    split_ifs with h
    · simp [List.foldl, digitChar_toNat n h]
    · rw [List.foldl_append, List.length_append,
        ih (n / 10) (Nat.div_lt_self (by omega) (by omega)) acc]
      have hm : n % 10 < 10 := Nat.mod_lt _ (by omega)
      simp only [List.foldl, List.length_cons, List.length_nil, digitChar_toNat _ hm]
      have hd : 48 + n % 10 - 48 = n % 10 := by omega
      rw [hd, pow_succ]
      have hr : (acc * 10 ^ (natDigits (n / 10)).length + n / 10) * 10 + n % 10 =
          acc * (10 ^ (natDigits (n / 10)).length * 10) + (n / 10 * 10 + n % 10) := by
        ring
      rw [hr]
      omega

theorem natDigits_ne_nil (n : Nat) : natDigits n ≠ [] := by
  rw [natDigits]
  split_ifs <;> simp

theorem fracGuard_of_numStop (rest : List Char) (h : numStop rest = true) :
    fracGuard rest = some rest := by
  cases rest with
  | nil => rfl
  | cons c t =>
    simp [numStop] at h
    obtain ⟨⟨⟨hdig, hdot⟩, he⟩, hE⟩ := h
    simp [fracGuard, hdot, he, hE]

theorem parseDigits_append (ds : List Char) :
    ∀ acc rest, (∀ c ∈ ds, 48 ≤ c.toNat ∧ c.toNat ≤ 57) → numStop rest = true →
    parseDigits acc (ds ++ rest) =
      (ds.foldl (fun a c => a * 10 + (c.toNat - 48)) acc, rest) := by
  induction ds with
  | nil =>
    intro acc rest _ hn
    cases rest with
    | nil => simp [parseDigits]
    | cons c t =>
      simp [numStop] at hn
      simp [parseDigits, hn.1.1.1]
  | cons d ds ih =>
    intro acc rest h hn
    have hd := h d (by simp)
    have hdt : isDigitChar d = true := by simp [isDigitChar]; omega
    rw [List.cons_append,
      show parseDigits acc (d :: (ds ++ rest)) =
        parseDigits (acc * 10 + (d.toNat - 48)) (ds ++ rest) from by
        simp [parseDigits, hdt]]
    rw [ih _ _ (fun c hc => h c (by simp [hc])) hn]
    simp [List.foldl]

theorem parseNat_natDigits (n : Nat) (rest : List Char) (hrest : numStop rest = true) :
    parseNat (natDigits n ++ rest) = some (n, rest) := by
  by_cases h0 : n = 0
  · subst h0
    rw [show natDigits 0 = ['0'] from by rw [natDigits]; simp; decide]
    simp [parseNat]
  · obtain ⟨c, t, hct, hc1, hc2⟩ := natDigits_head n (by omega)
    have hz : ('0' : Char).toNat = 48 := by decide
    have hcne : c ≠ '0' := by
      intro he
      rw [he, hz] at hc1
      omega
    rw [hct]
    simp only [List.cons_append, parseNat]
    rw [if_neg hcne, if_pos (show 49 ≤ c.toNat ∧ c.toNat ≤ 57 from ⟨hc1, hc2⟩)]
    rw [parseDigits_append t _ rest
      (fun ch hch => natDigits_digits n ch (by rw [hct]; simp [hch])) hrest]
    have hf := natDigits_foldl n 0
    rw [hct] at hf
    simp [List.foldl] at hf
    rw [hf]

theorem parseNumber_intChars (n : Int) (rest : List Char) (h : numStop rest = true) :
    parseNumber (intChars n ++ rest) = some (n, rest) := by
  unfold intChars
  split_ifs with hneg
  · simp only [List.cons_append, parseNumber, if_true]
    rw [parseNat_natDigits _ _ h]
    simp only [fracGuard_of_numStop rest h]
    have hcast : -(((-n).toNat : Int)) = n := by omega
    rw [hcast]
  · cases hct : natDigits n.toNat with
    | nil => exact absurd hct (natDigits_ne_nil _)
    | cons c t =>
      have hcd : 48 ≤ c.toNat ∧ c.toNat ≤ 57 :=
        natDigits_digits n.toNat c (by rw [hct]; simp)
      have hminus : ('-' : Char).toNat = 45 := by decide
      have hcne : c ≠ '-' := by
        intro he
        rw [he, hminus] at hcd
        omega
      simp only [List.cons_append, parseNumber]
      rw [if_neg hcne]
      rw [show c :: (t ++ rest) = natDigits n.toNat ++ rest from by
        rw [hct, List.cons_append]]
      rw [parseNat_natDigits _ _ h]
      simp only [fracGuard_of_numStop rest h]
      have hcast : ((n.toNat : Int)) = n := by omega
      rw [hcast]

/-! ## Round-trip: sizes, head characters, object reassembly -/

mutual

/-- Fuel measure: one unit per nesting step of the parser. -/
def sizeJson : Json → Nat
  | .null => 1
  | .bool _ => 1
  | .num _ => 1
  | .str _ => 1
  | .arr xs => 1 + sizeJsonList xs
  | .obj kvs => 1 + sizeJsonObj kvs

/-- Fuel measure of an array's items. -/
def sizeJsonList : List Json → Nat
  | [] => 0
  | x :: xs => 1 + sizeJson x + sizeJsonList xs

/-- Fuel measure of an object's entries. -/
def sizeJsonObj : List (String × Json) → Nat
  | [] => 0
  | (_, v) :: ps => 1 + sizeJson v + sizeJsonObj ps

end

theorem char_eq_iff_toNat (c d : Char) : c = d ↔ c.toNat = d.toNat :=
  ⟨fun h => by rw [h], fun h => Char.ext (UInt32.ext h)⟩

theorem not_special_of_digitish (c : Char) (h1 : 45 ≤ c.toNat) (h2 : c.toNat ≤ 57) :
    isWsChar c = false ∧ c ≠ ']' ∧ c ≠ 'n' ∧ c ≠ 't' ∧ c ≠ 'f' ∧ c ≠ '"' ∧
    c ≠ '[' ∧ c ≠ openBrace := by
  have hsp : (' ' : Char).toNat = 32 := by decide
  have htb : ('\t' : Char).toNat = 9 := by decide
  have hnl : ('\n' : Char).toNat = 10 := by decide
  have hcr : ('\r' : Char).toNat = 13 := by decide
  have hrb : (']' : Char).toNat = 93 := by decide
  have hn : ('n' : Char).toNat = 110 := by decide
  have ht : ('t' : Char).toNat = 116 := by decide
  have hf : ('f' : Char).toNat = 102 := by decide
  have hq : ('"' : Char).toNat = 34 := by decide
  have hlb : ('[' : Char).toNat = 91 := by decide
  have hob : openBrace.toNat = 123 := by decide
  refine ⟨?_, ?_, ?_, ?_, ?_, ?_, ?_, ?_⟩
  · simp [isWsChar, char_eq_iff_toNat, hsp, htb, hnl, hcr]
    omega
  · simp [char_eq_iff_toNat, hrb]; omega
  · simp [char_eq_iff_toNat, hn]; omega
  · simp [char_eq_iff_toNat, ht]; omega
  · simp [char_eq_iff_toNat, hf]; omega
  · simp [char_eq_iff_toNat, hq]; omega
  · simp [char_eq_iff_toNat, hlb]; omega
  · simp [char_eq_iff_toNat, hob]; omega

/-- The serialization of any value starts with a visible character that
is not a closing bracket. -/
theorem serJsonHead (lvl : Nat) (v : Json) :
    ∃ c t, serJson lvl v = c :: t ∧ isWsChar c = false ∧ c ≠ ']' := by
  cases v with
  | null => exact ⟨'n', ['u', 'l', 'l'], by simp [serJson, nullChars], by decide, by decide⟩
  | bool b =>
    cases b with
    | true => exact ⟨'t', ['r', 'u', 'e'], by simp [serJson, trueChars], by decide, by decide⟩
    | false => exact ⟨'f', ['a', 'l', 's', 'e'], by simp [serJson, falseChars], by decide, by decide⟩
  | num n =>
    by_cases hn : n < 0
    · exact ⟨'-', natDigits (-n).toNat, by simp [serJson, intChars, hn], by decide,
        by decide⟩
    · cases hct : natDigits n.toNat with
      | nil => exact absurd hct (natDigits_ne_nil _)
      | cons c t =>
        have hcd := natDigits_digits n.toNat c (by rw [hct]; simp)
        have hsp := not_special_of_digitish c (by omega) (by omega)
        exact ⟨c, t, by simp [serJson, intChars, hn, hct], hsp.1, hsp.2.1⟩
  | str s =>
    exact ⟨'"', escapeList s.data ++ ['"'], by simp [serJson], by decide, by decide⟩
  | arr xs =>
    cases xs with
    | nil => exact ⟨'[', [']'], by simp [serJson], by decide, by decide⟩
    | cons x xs =>
      exact ⟨'[', indentChars (lvl + 1) ++ serJson (lvl + 1) x ++
        serArrItems (lvl + 1) xs ++ indentChars lvl ++ [']'],
        by simp [serJson], by decide, by decide⟩
  | obj kvs =>
    cases kvs with
    | nil => exact ⟨openBrace, [closeBrace], by simp [serJson], by decide, by decide⟩
    | cons p ps =>
      exact ⟨openBrace, indentChars (lvl + 1) ++ serObjEntry (lvl + 1) p ++
        serObjItems (lvl + 1) ps ++ indentChars lvl ++ [closeBrace],
        by simp [serJson], by decide, by decide⟩

theorem numStop_indent (lvl : Nat) (t : List Char) :
    numStop (indentChars lvl ++ t) = true := rfl

theorem numStop_comma (t : List Char) : numStop (',' :: t) = true := rfl

theorem numStop_nil : numStop ([] : List Char) = true := rfl

theorem lookupA_none_forall {β : Type} (l : List (String × β)) (k : String)
    (h : lookupA l k = none) : ∀ p ∈ l, p.1 ≠ k := by
  induction l with
  | nil => intro p hp; simp at hp
  | cons q rest ih =>
    obtain ⟨qk, qv⟩ := q
    intro p hp
    by_cases hq : qk = k
    · simp [lookupA, hq] at h
    · simp only [lookupA, if_neg hq] at h
      rcases List.mem_cons.mp hp with rfl | hp2
      · exact hq
      · exact ih h p hp2

theorem lookupA_append_none {β : Type} (d e : List (String × β)) (k : String)
    (h : lookupA d k = none) : lookupA (d ++ e) k = lookupA e k := by
  induction d with
  | nil => rfl
  | cons q rest ih =>
    obtain ⟨qk, qv⟩ := q
    by_cases hq : qk = k
    · simp [lookupA, hq] at h
    · simp only [lookupA, if_neg hq] at h
      simp only [List.cons_append, lookupA, if_neg hq]
      exact ih h

theorem setKey_fresh (d : List (String × Json)) (k : String) (v : Json)
    (h : lookupA d k = none) : setKey d k v = d ++ [(k, v)] := by
  induction d with
  | nil => rfl
  | cons q rest ih =>
    obtain ⟨qk, qv⟩ := q
    by_cases hq : qk = k
    · simp [lookupA, hq] at h
    · simp only [lookupA, if_neg hq] at h
      simp [setKey, hq, ih h]

theorem objFromPairsAux_eq (ps : List (String × Json)) :
    ∀ d, (∀ p ∈ ps, lookupA d p.1 = none) → nodupKeys ps = true →
    objFromPairsAux d ps = d ++ ps := by
  induction ps with
  | nil => intro d _ _; simp [objFromPairsAux]
  | cons p ps ih =>
    obtain ⟨k, v⟩ := p
    intro d hd hnd
    simp only [nodupKeys, Bool.and_eq_true, Option.isNone_iff_eq_none] at hnd
    simp only [objFromPairsAux]
    rw [setKey_fresh d k v (hd (k, v) (by simp))]
    rw [ih (d ++ [(k, v)]) ?_ hnd.2]
    · simp
    · intro p hp
      rw [lookupA_append_none d _ _ (hd p (by simp [hp]))]
      have hne := lookupA_none_forall ps k hnd.1 p hp
      simp [lookupA, Ne.symm hne]

theorem objFromPairsAux_self (ps : List (String × Json)) (h : nodupKeys ps = true) :
    objFromPairsAux [] ps = ps := by
  rw [objFromPairsAux_eq ps [] (fun p _ => rfl) h]
  rfl

theorem wfList_mem (xs : List Json) (h : Json.wfList xs = true) :
    ∀ x ∈ xs, Json.wf x = true := by
  induction xs with
  | nil => intro x hx; simp at hx
  | cons y ys ih =>
    simp only [Json.wfList, Bool.and_eq_true] at h
    intro x hx
    rcases List.mem_cons.mp hx with rfl | hx2
    · exact h.1
    · exact ih h.2 x hx2

theorem wfObj_mem (ps : List (String × Json)) (h : Json.wfObj ps = true) :
    ∀ p ∈ ps, Json.wf p.2 = true := by
  induction ps with
  | nil => intro p hp; simp at hp
  | cons q qs ih =>
    obtain ⟨qk, qv⟩ := q
    simp only [Json.wfObj, Bool.and_eq_true] at h
    intro p hp
    rcases List.mem_cons.mp hp with rfl | hp2
    · exact h.1
    · exact ih h.2 p hp2

/-! ## Round-trip: the main induction -/

theorem sizeJson_pos (v : Json) : 1 ≤ sizeJson v := by
  cases v <;> simp [sizeJson]

theorem allWs_space : AllWs [' '] := by
  intro c hc
  simp at hc
  subst hc
  decide

/-- The parser recovers `v` from its serialization, any leading
whitespace and any safely-delimited remainder included. -/
def ParsesVal (v : Json) : Prop :=
  ∀ fuel lvl ws rest, sizeJson v < fuel → AllWs ws → numStop rest = true →
    parseValue fuel (ws ++ (serJson lvl v ++ rest)) = some (v, rest)

theorem parseArrItems_ser (lvl : Nat) (xs : List Json) :
    ∀ (x : Json) (fuel : Nat) (ws rest : List Char),
      (∀ z ∈ x :: xs, ParsesVal z) → sizeJsonList (x :: xs) < fuel → AllWs ws →
      numStop rest = true →
      parseArrItems fuel
        (ws ++ (serJson (lvl + 1) x ++ (serArrItems (lvl + 1) xs ++
          (indentChars lvl ++ (']' :: rest))))) =
      some (x :: xs, rest) := by
  induction xs with
  | nil =>
    intro x fuel ws rest hP hsz hws hrest
    cases fuel with
    | zero => exact absurd hsz (by omega)
    | succ f =>
      have hszx : sizeJson x < f := by
        simp only [sizeJsonList] at hsz
        omega
      rw [parseArrItems]
      rw [show serArrItems (lvl + 1) ([] : List Json) = [] from by simp [serArrItems]]
      rw [List.nil_append]
      rw [hP x (by simp) f (lvl + 1) ws (indentChars lvl ++ (']' :: rest))
        hszx hws (numStop_indent lvl _)]
      have h1 : skipWs (']' :: rest) = ']' :: rest := skipWs_cons_not_ws _ _ (by decide)
      simp [skipWs_indent, h1]
  | cons y ys ih =>
    intro x fuel ws rest hP hsz hws hrest
    cases fuel with
    | zero => exact absurd hsz (by omega)
    | succ f =>
      have hszx : sizeJson x < f := by
        simp only [sizeJsonList] at hsz
        have := sizeJson_pos y
        omega
      have hszl : sizeJsonList (y :: ys) < f := by
        have h1 := hsz
        simp only [sizeJsonList] at h1 ⊢
        have := sizeJson_pos x
        omega
      rw [parseArrItems]
      rw [show serArrItems (lvl + 1) (y :: ys) =
        ',' :: (indentChars (lvl + 1) ++ (serJson (lvl + 1) y ++ serArrItems (lvl + 1) ys))
        from by simp [serArrItems, List.append_assoc]]
      simp only [List.cons_append, List.append_assoc]
      rw [hP x (by simp) f (lvl + 1) ws
        (',' :: (indentChars (lvl + 1) ++ (serJson (lvl + 1) y ++ (serArrItems (lvl + 1) ys ++
          (indentChars lvl ++ (']' :: rest))))))
        hszx hws (numStop_comma _)]
      have h1 : skipWs (',' :: (indentChars (lvl + 1) ++ (serJson (lvl + 1) y ++
          (serArrItems (lvl + 1) ys ++ (indentChars lvl ++ (']' :: rest)))))) =
          ',' :: (indentChars (lvl + 1) ++ (serJson (lvl + 1) y ++
          (serArrItems (lvl + 1) ys ++ (indentChars lvl ++ (']' :: rest))))) :=
        skipWs_cons_not_ws _ _ (by decide)
      have hihy := ih y f (indentChars (lvl + 1)) rest
        (fun z hz => hP z (List.mem_cons_of_mem _ hz)) hszl (allWs_indentChars _) hrest
      simp [h1, hihy]

theorem parseObjItems_ser (lvl : Nat) (ps : List (String × Json)) :
    ∀ (p : String × Json) (fuel : Nat) (ws rest : List Char),
      (∀ z ∈ p :: ps, ParsesVal z.2) → sizeJsonObj (p :: ps) < fuel → AllWs ws →
      numStop rest = true →
      parseObjItems fuel
        (ws ++ (serObjEntry (lvl + 1) p ++ (serObjItems (lvl + 1) ps ++
          (indentChars lvl ++ (closeBrace :: rest))))) =
      some (p :: ps, rest) := by
  induction ps with
  | nil =>
    intro p fuel ws rest hP hsz hws hrest
    obtain ⟨k, v⟩ := p
    cases fuel with
    | zero => exact absurd hsz (by omega)
    | succ f =>
      have hszv : sizeJson v < f := by
        simp only [sizeJsonObj] at hsz
        omega
      rw [parseObjItems]
      rw [show serObjEntry (lvl + 1) (k, v) =
        '"' :: (escapeList k.data ++ ('"' :: ':' :: ' ' :: serJson (lvl + 1) v)) from by
        simp [serObjEntry]]
      rw [show serObjItems (lvl + 1) ([] : List (String × Json)) = [] from by
        simp [serObjItems]]
      simp only [List.cons_append, List.append_assoc, List.nil_append]
      rw [skipWs_append_ws _ _ hws, skipWs_cons_not_ws _ _ (by decide)]
      have hstr := parseStringBody_escape k.data
        (':' :: ' ' :: (serJson (lvl + 1) v ++ (indentChars lvl ++ (closeBrace :: rest))))
      have hv := hP (k, v) (by simp) f (lvl + 1) [' ']
        (indentChars lvl ++ (closeBrace :: rest)) hszv allWs_space (numStop_indent _ _)
      rw [show ([' '] : List Char) ++ (serJson (lvl + 1) v ++
          (indentChars lvl ++ (closeBrace :: rest))) =
        ' ' :: (serJson (lvl + 1) v ++ (indentChars lvl ++ (closeBrace :: rest))) from rfl]
        at hv
      have h2 : skipWs (':' :: ' ' ::
          (serJson (lvl + 1) v ++ (indentChars lvl ++ (closeBrace :: rest)))) =
          ':' :: ' ' :: (serJson (lvl + 1) v ++ (indentChars lvl ++ (closeBrace :: rest))) :=
        skipWs_cons_not_ws _ _ (by decide)
      have h1 : skipWs (closeBrace :: rest) = closeBrace :: rest :=
        skipWs_cons_not_ws _ _ (by decide)
      have hcb : closeBrace ≠ ',' := by decide
      simp [hstr, h2, hv, skipWs_indent, h1, hcb]
  | cons q qs ih =>
    intro p fuel ws rest hP hsz hws hrest
    obtain ⟨k, v⟩ := p
    cases fuel with
    | zero => exact absurd hsz (by omega)
    | succ f =>
      have hszv : sizeJson v < f := by
        simp only [sizeJsonObj] at hsz
        omega
      have hszq : sizeJsonObj (q :: qs) < f := by
        have h1 := hsz
        simp only [sizeJsonObj] at h1 ⊢
        have := sizeJson_pos v
        obtain ⟨qk, qv⟩ := q
        simp only [sizeJsonObj] at h1 ⊢
        omega
      rw [parseObjItems]
      rw [show serObjEntry (lvl + 1) (k, v) =
        '"' :: (escapeList k.data ++ ('"' :: ':' :: ' ' :: serJson (lvl + 1) v)) from by
        simp [serObjEntry]]
      rw [show serObjItems (lvl + 1) (q :: qs) =
        ',' :: (indentChars (lvl + 1) ++ (serObjEntry (lvl + 1) q ++ serObjItems (lvl + 1) qs))
        from by simp [serObjItems, List.append_assoc]]
      simp only [List.cons_append, List.append_assoc, List.nil_append]
      rw [skipWs_append_ws _ _ hws, skipWs_cons_not_ws _ _ (by decide)]
      have hstr := parseStringBody_escape k.data
        (':' :: ' ' :: (serJson (lvl + 1) v ++ (',' :: (indentChars (lvl + 1) ++
          (serObjEntry (lvl + 1) q ++ (serObjItems (lvl + 1) qs ++
            (indentChars lvl ++ (closeBrace :: rest))))))))
      have hv := hP (k, v) (by simp) f (lvl + 1) [' ']
        (',' :: (indentChars (lvl + 1) ++ (serObjEntry (lvl + 1) q ++
          (serObjItems (lvl + 1) qs ++ (indentChars lvl ++ (closeBrace :: rest))))))
        hszv allWs_space (numStop_comma _)
      rw [show ([' '] : List Char) ++ (serJson (lvl + 1) v ++
          (',' :: (indentChars (lvl + 1) ++ (serObjEntry (lvl + 1) q ++
            (serObjItems (lvl + 1) qs ++ (indentChars lvl ++ (closeBrace :: rest))))))) =
        ' ' :: (serJson (lvl + 1) v ++ (',' :: (indentChars (lvl + 1) ++
          (serObjEntry (lvl + 1) q ++ (serObjItems (lvl + 1) qs ++
            (indentChars lvl ++ (closeBrace :: rest))))))) from rfl] at hv
      have h2 : skipWs (':' :: ' ' :: (serJson (lvl + 1) v ++ (',' :: (indentChars (lvl + 1) ++
          (serObjEntry (lvl + 1) q ++ (serObjItems (lvl + 1) qs ++
            (indentChars lvl ++ (closeBrace :: rest)))))))) =
          ':' :: ' ' :: (serJson (lvl + 1) v ++ (',' :: (indentChars (lvl + 1) ++
          (serObjEntry (lvl + 1) q ++ (serObjItems (lvl + 1) qs ++
            (indentChars lvl ++ (closeBrace :: rest))))))) :=
        skipWs_cons_not_ws _ _ (by decide)
      have h1 : skipWs (',' :: (indentChars (lvl + 1) ++ (serObjEntry (lvl + 1) q ++
          (serObjItems (lvl + 1) qs ++ (indentChars lvl ++ (closeBrace :: rest)))))) =
          ',' :: (indentChars (lvl + 1) ++ (serObjEntry (lvl + 1) q ++
          (serObjItems (lvl + 1) qs ++ (indentChars lvl ++ (closeBrace :: rest))))) :=
        skipWs_cons_not_ws _ _ (by decide)
      have hihq := ih q f (indentChars (lvl + 1)) rest
        (fun z hz => hP z (List.mem_cons_of_mem _ hz)) hszq (allWs_indentChars _) hrest
      simp [hstr, h2, hv, h1, hihq]

/-- Every well-formed JSON value round-trips through one
serialize/parse step, in any whitespace and delimiter context. -/
theorem parsesVal_all : ∀ v, Json.wf v = true → ParsesVal v := by
  intro v
  induction v using Json.inductionOn with
  | hnull =>
    intro _ fuel lvl ws rest hsz hws hrest
    cases fuel with
    | zero => exact absurd hsz (by omega)
    | succ f =>
      rw [parseValue]
      rw [show serJson lvl Json.null = ['n', 'u', 'l', 'l'] from by simp [serJson, nullChars, trueChars, falseChars]]
      rw [show (['n', 'u', 'l', 'l'] : List Char) ++ rest =
        'n' :: 'u' :: 'l' :: 'l' :: rest from rfl]
      rw [skipWs_append_ws _ _ hws, skipWs_cons_not_ws _ _ (by decide)]
      simp
  | hbool b =>
    intro _ fuel lvl ws rest hsz hws hrest
    cases fuel with
    | zero => exact absurd hsz (by omega)
    | succ f =>
      cases b with
      | true =>
        rw [parseValue]
        rw [show serJson lvl (Json.bool true) = ['t', 'r', 'u', 'e'] from by simp [serJson, nullChars, trueChars, falseChars]]
        rw [show (['t', 'r', 'u', 'e'] : List Char) ++ rest =
          't' :: 'r' :: 'u' :: 'e' :: rest from rfl]
        rw [skipWs_append_ws _ _ hws, skipWs_cons_not_ws _ _ (by decide)]
        simp
      | false =>
        rw [parseValue]
        rw [show serJson lvl (Json.bool false) = ['f', 'a', 'l', 's', 'e'] from by
          simp [serJson, falseChars]]
        rw [show (['f', 'a', 'l', 's', 'e'] : List Char) ++ rest =
          'f' :: 'a' :: 'l' :: 's' :: 'e' :: rest from rfl]
        rw [skipWs_append_ws _ _ hws, skipWs_cons_not_ws _ _ (by decide)]
        simp
  | hnum n =>
    intro _ fuel lvl ws rest hsz hws hrest
    cases fuel with
    | zero => exact absurd hsz (by omega)
    | succ f =>
      rw [parseValue]
      rw [show serJson lvl (Json.num n) = intChars n from by simp [serJson, nullChars, trueChars, falseChars]]
      have hnum := parseNumber_intChars n rest hrest
      by_cases hn : n < 0
      · rw [show intChars n = '-' :: natDigits (-n).toNat from by simp [intChars, hn]]
        rw [show ('-' :: natDigits (-n).toNat) ++ rest =
          '-' :: (natDigits (-n).toNat ++ rest) from rfl]
        rw [skipWs_append_ws _ _ hws, skipWs_cons_not_ws _ _ (by decide)]
        rw [show intChars n = '-' :: natDigits (-n).toNat from by simp [intChars, hn]]
          at hnum
        rw [show ('-' :: natDigits (-n).toNat) ++ rest =
          '-' :: (natDigits (-n).toNat ++ rest) from rfl] at hnum
        have hmb : ('-' : Char) ≠ openBrace := by decide
        simp [hnum, hmb]
      · cases hct : natDigits n.toNat with
        | nil => exact absurd hct (natDigits_ne_nil _)
        | cons c t =>
          have hcd := natDigits_digits n.toNat c (by rw [hct]; simp)
          have hspl := not_special_of_digitish c (by omega) (by omega)
          have hdig : isDigitChar c = true := by simp [isDigitChar]; omega
          rw [show intChars n = c :: t from by simp [intChars, hn, hct]]
          rw [show (c :: t) ++ rest = c :: (t ++ rest) from rfl]
          rw [skipWs_append_ws _ _ hws, skipWs_cons_not_ws _ _ hspl.1]
          rw [show intChars n = c :: t from by simp [intChars, hn, hct]] at hnum
          rw [show (c :: t) ++ rest = c :: (t ++ rest) from rfl] at hnum
          simp [hnum, hspl.2.2.1, hspl.2.2.2.1, hspl.2.2.2.2.1, hspl.2.2.2.2.2.1,
            hspl.2.2.2.2.2.2.1, hspl.2.2.2.2.2.2.2, hdig]
  | hstr s =>
    intro _ fuel lvl ws rest hsz hws hrest
    cases fuel with
    | zero => exact absurd hsz (by omega)
    | succ f =>
      rw [parseValue]
      rw [show serJson lvl (Json.str s) = '"' :: (escapeList s.data ++ ['"']) from by
        simp [serJson]]
      rw [show ('"' :: (escapeList s.data ++ ['"'])) ++ rest =
        '"' :: (escapeList s.data ++ ('"' :: rest)) from by simp]
      rw [skipWs_append_ws _ _ hws, skipWs_cons_not_ws _ _ (by decide)]
      have hstr := parseStringBody_escape s.data rest
      simp [hstr]
  | harr xs ih =>
    intro hwf fuel lvl ws rest hsz hws hrest
    cases fuel with
    | zero => exact absurd hsz (by omega)
    | succ f =>
      cases xs with
      | nil =>
        rw [parseValue]
        rw [show serJson lvl (Json.arr []) = ['[', ']'] from by simp [serJson, nullChars, trueChars, falseChars]]
        rw [show (['[', ']'] : List Char) ++ rest = '[' :: (']' :: rest) from rfl]
        rw [skipWs_append_ws _ _ hws, skipWs_cons_not_ws _ _ (by decide)]
        have h1 : skipWs (']' :: rest) = ']' :: rest := skipWs_cons_not_ws _ _ (by decide)
        simp [h1]
      | cons x xs2 =>
        have hwfl : Json.wfList (x :: xs2) = true := by
          simpa [Json.wf] using hwf
        have hPmem : ∀ z ∈ x :: xs2, ParsesVal z := fun z hz =>
          ih z hz (wfList_mem _ hwfl z hz)
        have hszl : sizeJsonList (x :: xs2) < f := by
          simp only [sizeJson] at hsz
          omega
        rw [parseValue]
        rw [show serJson lvl (Json.arr (x :: xs2)) =
          '[' :: (indentChars (lvl + 1) ++ (serJson (lvl + 1) x ++
            (serArrItems (lvl + 1) xs2 ++ (indentChars lvl ++ [']'])))) from by
          simp [serJson, List.append_assoc]]
        rw [show ('[' :: (indentChars (lvl + 1) ++ (serJson (lvl + 1) x ++
            (serArrItems (lvl + 1) xs2 ++ (indentChars lvl ++ [']']))))) ++ rest =
          '[' :: (indentChars (lvl + 1) ++ (serJson (lvl + 1) x ++
            (serArrItems (lvl + 1) xs2 ++ (indentChars lvl ++ (']' :: rest))))) from by
          simp]
        rw [skipWs_append_ws _ _ hws, skipWs_cons_not_ws _ _ (by decide)]
        obtain ⟨c2, t2, hser, hc2ws, hc2n⟩ := serJsonHead (lvl + 1) x
        have hsk : skipWs (indentChars (lvl + 1) ++ (serJson (lvl + 1) x ++
            (serArrItems (lvl + 1) xs2 ++ (indentChars lvl ++ (']' :: rest))))) =
            c2 :: (t2 ++ (serArrItems (lvl + 1) xs2 ++
              (indentChars lvl ++ (']' :: rest)))) := by
          rw [skipWs_indent, hser]
          rw [show (c2 :: t2) ++ (serArrItems (lvl + 1) xs2 ++
              (indentChars lvl ++ (']' :: rest))) =
            c2 :: (t2 ++ (serArrItems (lvl + 1) xs2 ++
              (indentChars lvl ++ (']' :: rest)))) from rfl]
          exact skipWs_cons_not_ws _ _ hc2ws
        have harr := parseArrItems_ser lvl xs2 x f [] rest hPmem hszl
          (fun c hc => by simp at hc) hrest
        rw [show ([] : List Char) ++ (serJson (lvl + 1) x ++
            (serArrItems (lvl + 1) xs2 ++ (indentChars lvl ++ (']' :: rest)))) =
          serJson (lvl + 1) x ++ (serArrItems (lvl + 1) xs2 ++
            (indentChars lvl ++ (']' :: rest))) from rfl] at harr
        rw [hser] at harr
        rw [show (c2 :: t2) ++ (serArrItems (lvl + 1) xs2 ++
            (indentChars lvl ++ (']' :: rest))) =
          c2 :: (t2 ++ (serArrItems (lvl + 1) xs2 ++
            (indentChars lvl ++ (']' :: rest)))) from rfl] at harr
        simp [hsk, hc2n, harr]
  | hobj kvs ih =>
    intro hwf fuel lvl ws rest hsz hws hrest
    cases fuel with
    | zero => exact absurd hsz (by omega)
    | succ f =>
      cases kvs with
      | nil =>
        rw [parseValue]
        rw [show serJson lvl (Json.obj []) = [openBrace, closeBrace] from by
          simp [serJson]]
        rw [show ([openBrace, closeBrace] : List Char) ++ rest =
          openBrace :: (closeBrace :: rest) from rfl]
        rw [skipWs_append_ws _ _ hws, skipWs_cons_not_ws _ _ (by decide)]
        have h1 : skipWs (closeBrace :: rest) = closeBrace :: rest :=
          skipWs_cons_not_ws _ _ (by decide)
        have hne1 : openBrace ≠ 'n' := by decide
        have hne2 : openBrace ≠ 't' := by decide
        have hne3 : openBrace ≠ 'f' := by decide
        have hne4 : openBrace ≠ '"' := by decide
        have hne5 : openBrace ≠ '[' := by decide
        simp [h1, hne1, hne2, hne3, hne4, hne5]
      | cons p ps =>
        obtain ⟨k, v⟩ := p
        have hnd : nodupKeys ((k, v) :: ps) = true := by
          have := hwf
          simp only [Json.wf, Bool.and_eq_true] at this
          exact this.1
        have hwo : Json.wfObj ((k, v) :: ps) = true := by
          have := hwf
          simp only [Json.wf, Bool.and_eq_true] at this
          exact this.2
        have hPmem : ∀ z ∈ (k, v) :: ps, ParsesVal z.2 := fun z hz =>
          ih z hz (wfObj_mem _ hwo z hz)
        have hszo : sizeJsonObj ((k, v) :: ps) < f := by
          simp only [sizeJson] at hsz
          omega
        rw [parseValue]
        rw [show serJson lvl (Json.obj ((k, v) :: ps)) =
          openBrace :: (indentChars (lvl + 1) ++ (serObjEntry (lvl + 1) (k, v) ++
            (serObjItems (lvl + 1) ps ++ (indentChars lvl ++ [closeBrace])))) from by
          simp [serJson, List.append_assoc]]
        rw [show (openBrace :: (indentChars (lvl + 1) ++ (serObjEntry (lvl + 1) (k, v) ++
            (serObjItems (lvl + 1) ps ++ (indentChars lvl ++ [closeBrace]))))) ++ rest =
          openBrace :: (indentChars (lvl + 1) ++ (serObjEntry (lvl + 1) (k, v) ++
            (serObjItems (lvl + 1) ps ++ (indentChars lvl ++ (closeBrace :: rest)))))
          from by simp]
        rw [skipWs_append_ws _ _ hws, skipWs_cons_not_ws _ _ (by decide)]
        have hser : serObjEntry (lvl + 1) (k, v) =
            '"' :: (escapeList k.data ++ ('"' :: ':' :: ' ' :: serJson (lvl + 1) v)) := by
          simp [serObjEntry]
        have hsk : skipWs (indentChars (lvl + 1) ++ (serObjEntry (lvl + 1) (k, v) ++
            (serObjItems (lvl + 1) ps ++ (indentChars lvl ++ (closeBrace :: rest))))) =
            '"' :: ((escapeList k.data ++ ('"' :: ':' :: ' ' :: serJson (lvl + 1) v)) ++
              (serObjItems (lvl + 1) ps ++ (indentChars lvl ++ (closeBrace :: rest)))) := by
          rw [skipWs_indent, hser]
          rw [show ('"' :: (escapeList k.data ++ ('"' :: ':' :: ' ' :: serJson (lvl + 1) v))) ++
              (serObjItems (lvl + 1) ps ++ (indentChars lvl ++ (closeBrace :: rest))) =
            '"' :: ((escapeList k.data ++ ('"' :: ':' :: ' ' :: serJson (lvl + 1) v)) ++
              (serObjItems (lvl + 1) ps ++ (indentChars lvl ++ (closeBrace :: rest))))
            from rfl]
          exact skipWs_cons_not_ws _ _ (by decide)
        have hobjit := parseObjItems_ser lvl ps (k, v) f [] rest hPmem hszo
          (fun c hc => by simp at hc) hrest
        rw [show ([] : List Char) ++ (serObjEntry (lvl + 1) (k, v) ++
            (serObjItems (lvl + 1) ps ++ (indentChars lvl ++ (closeBrace :: rest)))) =
          serObjEntry (lvl + 1) (k, v) ++ (serObjItems (lvl + 1) ps ++
            (indentChars lvl ++ (closeBrace :: rest))) from rfl] at hobjit
        rw [hser] at hobjit
        rw [show ('"' :: (escapeList k.data ++ ('"' :: ':' :: ' ' :: serJson (lvl + 1) v))) ++
            (serObjItems (lvl + 1) ps ++ (indentChars lvl ++ (closeBrace :: rest))) =
          '"' :: ((escapeList k.data ++ ('"' :: ':' :: ' ' :: serJson (lvl + 1) v)) ++
            (serObjItems (lvl + 1) ps ++ (indentChars lvl ++ (closeBrace :: rest))))
          from rfl] at hobjit
        have hq : ('"' : Char) ≠ closeBrace := by decide
        have hb1 : openBrace ≠ 'n' := by decide
        have hb2 : openBrace ≠ 't' := by decide
        have hb3 : openBrace ≠ 'f' := by decide
        have hb4 : openBrace ≠ '"' := by decide
        have hb5 : openBrace ≠ '[' := by decide
        have hself := objFromPairsAux_self ((k, v) :: ps) hnd
        simp only [List.append_assoc, List.cons_append] at hobjit
        simp [hsk, hq, hb1, hb2, hb3, hb4, hb5, hobjit, hself]

/-! ## Well-formedness: produced by the parser, preserved by the update -/

theorem setKey_nodup (d : List (String × Json)) (k : String) (v : Json)
    (h : nodupKeys d = true) : nodupKeys (setKey d k v) = true := by
  induction d with
  | nil => simp [setKey, nodupKeys, lookupA]
  | cons q rest ih =>
    obtain ⟨qk, qv⟩ := q
    simp only [nodupKeys, Bool.and_eq_true, Option.isNone_iff_eq_none] at h
    by_cases hq : qk = k
    · subst hq
      simp only [setKey, if_pos rfl, nodupKeys, Bool.and_eq_true,
        Option.isNone_iff_eq_none]
      exact ⟨h.1, h.2⟩
    · simp only [setKey, if_neg hq, nodupKeys, Bool.and_eq_true,
        Option.isNone_iff_eq_none]
      exact ⟨by rw [lookupA_setKey_ne _ _ _ _ hq]; exact h.1, ih h.2⟩

theorem setKey_wfObj (d : List (String × Json)) (k : String) (v : Json)
    (hd : Json.wfObj d = true) (hv : Json.wf v = true) :
    Json.wfObj (setKey d k v) = true := by
  induction d with
  | nil => simp [setKey, Json.wfObj, hv]
  | cons q rest ih =>
    obtain ⟨qk, qv⟩ := q
    simp only [Json.wfObj, Bool.and_eq_true] at hd
    by_cases hq : qk = k
    · subst hq
      simp only [setKey, if_pos rfl, Json.wfObj, Bool.and_eq_true]
      exact ⟨hv, hd.2⟩
    · simp only [setKey, if_neg hq, Json.wfObj, Bool.and_eq_true]
      exact ⟨hd.1, ih hd.2⟩

theorem wf_obj_setKey (d : List (String × Json)) (k : String) (v : Json)
    (hd : Json.wf (.obj d) = true) (hv : Json.wf v = true) :
    Json.wf (.obj (setKey d k v)) = true := by
  simp only [Json.wf, Bool.and_eq_true] at hd ⊢
  exact ⟨setKey_nodup d k v hd.1, setKey_wfObj d k v hd.2 hv⟩

theorem nodupKeys_objFromPairsAux (ps : List (String × Json)) :
    ∀ d, nodupKeys d = true → nodupKeys (objFromPairsAux d ps) = true := by
  induction ps with
  | nil => intro d hd; simpa [objFromPairsAux] using hd
  | cons p ps2 ih =>
    obtain ⟨k, v⟩ := p
    intro d hd
    simp only [objFromPairsAux]
    exact ih _ (setKey_nodup d k v hd)

theorem wfObj_objFromPairsAux (ps : List (String × Json)) :
    ∀ d, Json.wfObj d = true → (∀ p ∈ ps, Json.wf p.2 = true) →
    Json.wfObj (objFromPairsAux d ps) = true := by
  induction ps with
  | nil => intro d hd _; simpa [objFromPairsAux] using hd
  | cons p ps2 ih =>
    obtain ⟨k, v⟩ := p
    intro d hd hall
    simp only [objFromPairsAux]
    exact ih _ (setKey_wfObj d k v hd (hall (k, v) (by simp)))
      (fun q hq => hall q (by simp [hq]))

/-- Everything a successful parse returns is well formed: objects built
by `dict(pairs)` have pairwise-distinct keys. -/
theorem parse_wf (fuel : Nat) :
    (∀ s v r, parseValue fuel s = some (v, r) → Json.wf v = true) ∧
    (∀ s vs r, parseArrItems fuel s = some (vs, r) → Json.wfList vs = true) ∧
    (∀ s ps r, parseObjItems fuel s = some (ps, r) → Json.wfObj ps = true) := by
  induction fuel with
  | zero =>
    refine ⟨?_, ?_, ?_⟩ <;> intro s v r h <;>
      simp [parseValue, parseArrItems, parseObjItems] at h
  | succ f ih =>
    obtain ⟨ihv, iha, iho⟩ := ih
    refine ⟨?_, ?_, ?_⟩
    · intro s v r h
      rw [parseValue] at h
      cases hsk : skipWs s with
      | nil => rw [hsk] at h; exact absurd h (by simp)
      | cons c cs =>
        rw [hsk] at h
        simp only [] at h
        split_ifs at h with h1 h2 h3 h4 h5 h6 h7
        · split at h
          · cases h; simp [Json.wf]
          · exact absurd h (by simp)
        · split at h
          · cases h; simp [Json.wf]
          · exact absurd h (by simp)
        · split at h
          · cases h; simp [Json.wf]
          · exact absurd h (by simp)
        · cases hps : parseStringBody cs with
          | none => rw [hps] at h; exact absurd h (by simp)
          | some p =>
            obtain ⟨cs2, r2⟩ := p
            rw [hps] at h
            simp only [] at h
            cases h
            simp [Json.wf]
        · cases hsk2 : skipWs cs with
          | nil => rw [hsk2] at h; exact absurd h (by simp)
          | cons c2 r2 =>
            rw [hsk2] at h
            simp only [] at h
            split_ifs at h with hcb
            · cases h; simp [Json.wf, Json.wfList]
            · cases hpa : parseArrItems f (c2 :: r2) with
              | none => rw [hpa] at h; exact absurd h (by simp)
              | some p =>
                obtain ⟨vs2, r3⟩ := p
                rw [hpa] at h
                simp only [] at h
                cases h
                simpa [Json.wf] using iha _ _ _ hpa
        · cases hsk2 : skipWs cs with
          | nil => rw [hsk2] at h; exact absurd h (by simp)
          | cons c2 r2 =>
            rw [hsk2] at h
            simp only [] at h
            split_ifs at h with hcb
            · cases h; simp [Json.wf, nodupKeys, Json.wfObj]
            · cases hpo : parseObjItems f (c2 :: r2) with
              | none => rw [hpo] at h; exact absurd h (by simp)
              | some p =>
                obtain ⟨ps2, r3⟩ := p
                rw [hpo] at h
                simp only [] at h
                cases h
                have hvals := wfObj_mem ps2 (iho _ _ _ hpo)
                simp only [Json.wf, Bool.and_eq_true]
                exact ⟨nodupKeys_objFromPairsAux ps2 [] rfl,
                  wfObj_objFromPairsAux ps2 [] rfl hvals⟩
        · cases hpn : parseNumber (c :: cs) with
          | none => rw [hpn] at h; exact absurd h (by simp)
          | some p =>
            obtain ⟨n, r2⟩ := p
            rw [hpn] at h
            simp only [] at h
            cases h
            simp [Json.wf]
    · intro s vs r h
      rw [parseArrItems] at h
      cases hpv : parseValue f s with
      | none => rw [hpv] at h; exact absurd h (by simp)
      | some p =>
        obtain ⟨v, r1⟩ := p
        rw [hpv] at h
        simp only [] at h
        cases hsk : skipWs r1 with
        | nil => rw [hsk] at h; exact absurd h (by simp)
        | cons c r2 =>
          rw [hsk] at h
          simp only [] at h
          split_ifs at h with hc1 hc2
          · cases hpa : parseArrItems f r2 with
            | none => rw [hpa] at h; exact absurd h (by simp)
            | some p2 =>
              obtain ⟨vs2, r3⟩ := p2
              rw [hpa] at h
              simp only [] at h
              cases h
              simp only [Json.wfList, Bool.and_eq_true]
              exact ⟨ihv _ _ _ hpv, iha _ _ _ hpa⟩
          · cases h
            simp only [Json.wfList, Bool.and_eq_true]
            exact ⟨ihv _ _ _ hpv, trivial⟩
    · intro s ps r h
      rw [parseObjItems] at h
      cases hsk : skipWs s with
      | nil => rw [hsk] at h; exact absurd h (by simp)
      | cons c0 r0 =>
        rw [hsk] at h
        simp only [] at h
        split_ifs at h with hq
        · cases hps : parseStringBody r0 with
          | none => rw [hps] at h; exact absurd h (by simp)
          | some p =>
            obtain ⟨kcs, r2⟩ := p
            rw [hps] at h
            simp only [] at h
            cases hsk2 : skipWs r2 with
            | nil => rw [hsk2] at h; exact absurd h (by simp)
            | cons c1 r3 =>
              rw [hsk2] at h
              simp only [] at h
              split_ifs at h with hc1
              · cases hpv : parseValue f r3 with
                | none => rw [hpv] at h; exact absurd h (by simp)
                | some p2 =>
                  obtain ⟨v, r4⟩ := p2
                  rw [hpv] at h
                  simp only [] at h
                  cases hsk3 : skipWs r4 with
                  | nil => rw [hsk3] at h; exact absurd h (by simp)
                  | cons c r5 =>
                    rw [hsk3] at h
                    simp only [] at h
                    split_ifs at h with hcm hcb
                    · cases hpo : parseObjItems f r5 with
                      | none => rw [hpo] at h; exact absurd h (by simp)
                      | some p3 =>
                        obtain ⟨ps2, r6⟩ := p3
                        rw [hpo] at h
                        simp only [] at h
                        cases h
                        simp only [Json.wfObj, Bool.and_eq_true]
                        exact ⟨ihv _ _ _ hpv, iho _ _ _ hpo⟩
                    · cases h
                      simp only [Json.wfObj, Bool.and_eq_true]
                      exact ⟨ihv _ _ _ hpv, trivial⟩

theorem wfList_map_str (l : List String) : Json.wfList (l.map Json.str) = true := by
  induction l with
  | nil => simp [Json.wfList]
  | cons x xs ih => simp [Json.wfList, Json.wf, ih]

theorem applyRename_wf (a : List (String × Json)) (rd : RenameData)
    (ha : Json.wf (.obj a) = true) : Json.wf (.obj (applyRename a rd)) = true := by
  unfold applyRename
  exact wf_obj_setKey _ _ _
    (wf_obj_setKey _ _ _
      (wf_obj_setKey _ _ _
        (wf_obj_setKey _ _ _ ha (by simp [Json.wf]))
        (by simp [Json.wf]))
      (by simp [Json.wf]))
    (by simp [Json.wf, wfList_map_str])

theorem updateAsset_wf (a b : List (String × Json))
    (ha : Json.wf (.obj a) = true) (h : updateAsset a = .ok b) :
    Json.wf (.obj b) = true := by
  rcases updateAsset_ok_cases a b h with ⟨rfl, _⟩ | ⟨i, rd, _, _, _, rfl⟩
  · exact ha
  · exact applyRename_wf a rd ha

theorem updAssetJson_wf (x y : Json) (hx : Json.wf x = true)
    (h : updAssetJson x = .ok y) : Json.wf y = true := by
  cases x with
  | obj a =>
    cases hu : updateAsset a with
    | error e =>
      simp only [updAssetJson, hu] at h
      exact absurd h (by simp)
    | ok b =>
      simp only [updAssetJson, hu] at h
      obtain rfl := (Except.ok.inj h)
      exact updateAsset_wf a b hx hu
  | null => exact absurd h (by simp [updAssetJson])
  | bool c => exact absurd h (by simp [updAssetJson])
  | num c => exact absurd h (by simp [updAssetJson])
  | str c => exact absurd h (by simp [updAssetJson])
  | arr c => exact absurd h (by simp [updAssetJson])

theorem updateAssets_wf (as as' : List Json) (h : updateAssets as = .ok as')
    (hwf : Json.wfList as = true) : Json.wfList as' = true := by
  induction as generalizing as' with
  | nil =>
    unfold updateAssets at h
    obtain rfl := (Except.ok.inj h)
    rfl
  | cons a rest ih =>
    unfold updateAssets at h
    simp only [Json.wfList, Bool.and_eq_true] at hwf
    cases ha : updAssetJson a with
    | error e => rw [ha] at h; exact absurd h (by simp)
    | ok a' =>
      rw [ha] at h
      cases hrest : updateAssets rest with
      | error e => rw [hrest] at h; exact absurd h (by simp)
      | ok rest' =>
        rw [hrest] at h
        obtain rfl := (Except.ok.inj h)
        simp only [Json.wfList, Bool.and_eq_true]
        exact ⟨updAssetJson_wf a a' hwf.1 ha, ih rest' hrest hwf.2⟩

theorem lookupA_wf (kvs : List (String × Json)) (k : String) (w : Json)
    (hwf : Json.wf (.obj kvs) = true) (h : lookupA kvs k = some w) :
    Json.wf w = true := by
  simp only [Json.wf, Bool.and_eq_true] at hwf
  exact wfObj_mem kvs hwf.2 (k, w) (lookupA_mem _ _ _ h)

theorem updateCatalog_wf (c c' : Json) (hwf : Json.wf c = true)
    (h : updateCatalog c = .ok c') : Json.wf c' = true := by
  cases c with
  | obj kvs =>
    cases hak : lookupA kvs "assets" with
    | none => simp only [updateCatalog, hak] at h; exact absurd h (by simp)
    | some v =>
      cases v with
      | arr assets =>
        simp only [updateCatalog, hak] at h
        cases hua : updateAssets assets with
        | error e => simp only [hua] at h; exact absurd h (by simp)
        | ok as2 =>
          simp only [hua] at h
          obtain rfl := (Except.ok.inj h)
          have h1 : Json.wfList assets = true := by
            simpa [Json.wf] using lookupA_wf kvs "assets" _ hwf hak
          have h2 : Json.wfList as2 = true := updateAssets_wf assets as2 hua h1
          exact wf_obj_setKey kvs "assets" (.arr as2) hwf (by simpa [Json.wf] using h2)
      | null => simp only [updateCatalog, hak] at h; exact absurd h (by simp)
      | bool c0 => simp only [updateCatalog, hak] at h; exact absurd h (by simp)
      | num c0 => simp only [updateCatalog, hak] at h; exact absurd h (by simp)
      | str c0 => simp only [updateCatalog, hak] at h; exact absurd h (by simp)
      | obj c0 => simp only [updateCatalog, hak] at h; exact absurd h (by simp)
  | null => exact absurd h (by simp [updateCatalog])
  | bool c0 => exact absurd h (by simp [updateCatalog])
  | num c0 => exact absurd h (by simp [updateCatalog])
  | str c0 => exact absurd h (by simp [updateCatalog])
  | arr c0 => exact absurd h (by simp [updateCatalog])

/-- The serialization is at least as long as the fuel the parse of it
needs. -/
theorem serJson_length : ∀ v : Json, ∀ lvl, sizeJson v ≤ (serJson lvl v).length := by
  intro v
  induction v using Json.inductionOn with
  | hnull => intro lvl; simp [serJson, sizeJson, nullChars]
  | hbool b => intro lvl; cases b <;> simp [serJson, sizeJson, trueChars, falseChars]
  | hnum n =>
    intro lvl
    rw [show serJson lvl (Json.num n) = intChars n from by simp [serJson, nullChars, trueChars, falseChars]]
    rw [show sizeJson (Json.num n) = 1 from by simp [sizeJson]]
    have hne : intChars n ≠ [] := by
      unfold intChars
      split_ifs
      · simp
      · exact natDigits_ne_nil _
    cases hic : intChars n with
    | nil => exact absurd hic hne
    | cons c t => simp
  | hstr s => intro lvl; simp [serJson, sizeJson]
  | harr xs ih =>
    intro lvl
    cases xs with
    | nil => simp [serJson, sizeJson, sizeJsonList]
    | cons x xs2 =>
      have hitems : ∀ ys, (∀ y ∈ ys, ∀ l, sizeJson y ≤ (serJson l y).length) →
          ∀ l, sizeJsonList ys ≤ (serArrItems l ys).length := by
        intro ys
        induction ys with
        | nil => intro _ l; simp [sizeJsonList, serArrItems]
        | cons y ys2 ihy =>
          intro hmem l
          have h1 := hmem y (by simp) l
          have h2 := ihy (fun z hz => hmem z (by simp [hz])) l
          simp only [sizeJsonList, serArrItems]
          simp [List.length_append, indentChars]
          omega
      have hx := ih x (by simp) (lvl + 1)
      have hxs := hitems xs2 (fun z hz => ih z (by simp [hz])) (lvl + 1)
      simp only [sizeJson, sizeJsonList]
      rw [show serJson lvl (Json.arr (x :: xs2)) =
        '[' :: (indentChars (lvl + 1) ++ (serJson (lvl + 1) x ++
          (serArrItems (lvl + 1) xs2 ++ (indentChars lvl ++ [']'])))) from by
        simp [serJson, List.append_assoc]]
      simp [List.length_append, indentChars]
      omega
  | hobj kvs ih =>
    intro lvl
    cases kvs with
    | nil => simp [serJson, sizeJson, sizeJsonObj]
    | cons p ps =>
      have hentry : ∀ (k : String) (v : Json), (∀ l, sizeJson v ≤ (serJson l v).length) →
          ∀ l, 1 + sizeJson v ≤ (serObjEntry l (k, v)).length := by
        intro k v hq l
        have := hq l
        simp only [serObjEntry]
        simp [List.length_append]
        omega
      have hitems : ∀ qs, (∀ q ∈ qs, ∀ l, sizeJson q.2 ≤ (serJson l q.2).length) →
          ∀ l, sizeJsonObj qs ≤ (serObjItems l qs).length := by
        intro qs
        induction qs with
        | nil => intro _ l; simp [sizeJsonObj, serObjItems]
        | cons q qs2 ihq =>
          intro hmem l
          obtain ⟨k, v⟩ := q
          have h1 := hentry k v (hmem (k, v) (by simp)) l
          have h2 := ihq (fun z hz => hmem z (by simp [hz])) l
          simp only [sizeJsonObj, serObjItems]
          simp [List.length_append, indentChars]
          omega
      obtain ⟨k, v⟩ := p
      have hp := hentry k v (ih (k, v) (by simp)) (lvl + 1)
      have hps := hitems ps (fun z hz => ih z (by simp [hz])) (lvl + 1)
      simp only [sizeJson, sizeJsonObj]
      rw [show serJson lvl (Json.obj ((k, v) :: ps)) =
        openBrace :: (indentChars (lvl + 1) ++ (serObjEntry (lvl + 1) (k, v) ++
          (serObjItems (lvl + 1) ps ++ (indentChars lvl ++ [closeBrace])))) from by
        simp [serJson, List.append_assoc]]
      simp only [sizeJson] at hp
      simp [List.length_append, indentChars]
      omega

/-- `json.loads` of `json.dumps` of any well-formed value is that value. -/
theorem loads_dumps (c : Json) (h : Json.wf c = true) : loads (dumps c) = some c := by
  unfold loads dumps
  have hp := parsesVal_all c h ((serJson 0 c).length + 1) 0 [] []
    (by have := serJson_length c 0; omega)
    (fun x hx => by simp at hx) rfl
  rw [show ([] : List Char) ++ (serJson 0 c ++ []) = serJson 0 c from by simp] at hp
  rw [hp]
  simp [skipWs]

/-- What `json.loads` accepts is well formed. -/
theorem loads_wf (s : List Char) (c : Json) (h : loads s = some c) :
    Json.wf c = true := by
  unfold loads at h
  cases hpv : parseValue (s.length + 1) s with
  | none => rw [hpv] at h; exact absurd h (by simp)
  | some p =>
    obtain ⟨v, rest⟩ := p
    rw [hpv] at h
    simp only [] at h
    split_ifs at h
    have hvc := Option.some.inj h
    rw [← hvc]
    exact (parse_wf (s.length + 1)).1 s v rest hpv

/-- C4.  A catalog read by `json.load` and transformed by the update
phase serializes to text that parses back to exactly the updated
catalog: the written file is valid JSON and round-trips. -/
theorem claim_C4 (s : List Char) (c c' : Json)
    (hload : loads s = some c) (hupd : updateCatalog c = .ok c') :
    loads (dumps c') = some c' :=
  loads_dumps c' (updateCatalog_wf c c' (loads_wf s c hload) hupd)

/-! ### The script around the update phase

File-system effects are modeled explicitly: reading is a function from
paths to optional file contents, writing either succeeds or fails, and a
run returns the list of `(path, contents)` pairs actually written. -/

/-- Line 10: the input path literal passed to `os.path.expanduser`. -/
def catalog_path : String :=
  "~/.claude/asset-packs/webgpu-threejs-tsl/packs/downloads-pack/downloads.catalog.json"

/-- Line 114: the output path literal passed to `os.path.expanduser`. -/
def output_path : String := "~/Downloads/downloads-renamed.catalog.json"

/-- `os.path.expanduser` on the paths this script uses: a leading `~`
is replaced by the home directory (assumed to carry no trailing slash;
both literals here have the `~/...` shape, where CPython substitutes
`path[1:]` after the home). Paths not starting with `~` are returned
unchanged. -/
def expanduser (home p : String) : String :=
  if p.data.head? = some '~' then ⟨home.data ++ p.data.tail⟩ else p

/-- The faults that abort the script: a missing input file
(`FileNotFoundError` from `open`), malformed input
(`json.JSONDecodeError` from `json.load`), an exception in the update
loop, or a failing output `open`/write (`OSError`). None is caught. -/
inductive ScriptFault where
  | fileNotFound : ScriptFault
  | jsonDecodeError : ScriptFault
  | pyError : PyErr → ScriptFault
  | writeError : ScriptFault
deriving DecidableEq

/-- The whole script: open and parse the catalog, run the update
phase, then write the serialized result (`indent=2`) to the expanded
output path. The result lists the writes performed; any fault aborts
with no write. -/
def runScript (home : String) (fs : String → Option (List Char)) (writeOk : Bool) :
    Except ScriptFault (List (String × List Char)) :=
  match fs (expanduser home catalog_path) with
  | none => .error .fileNotFound
  | some text =>
    match loads text with
    | none => .error .jsonDecodeError
    | some catalog =>
      match updateCatalog catalog with
      | .error e => .error (.pyError e)
      | .ok catalog2 =>
        if writeOk then .ok [(expanduser home output_path, dumps catalog2)]
        else .error .writeError

theorem expanduser_catalog (home : String) :
    expanduser home catalog_path =
      ⟨home.data ++ (".claude/asset-packs/webgpu-threejs-tsl/packs/downloads-pack/downloads.catalog.json").data.cons '/'⟩ := by
  rw [expanduser, if_pos (show catalog_path.data.head? = some '~' from by decide)]
  rw [show catalog_path.data.tail =
    (".claude/asset-packs/webgpu-threejs-tsl/packs/downloads-pack/downloads.catalog.json").data.cons '/' from by decide]

theorem expanduser_output (home : String) :
    expanduser home output_path =
      ⟨home.data ++ ("Downloads/downloads-renamed.catalog.json").data.cons '/'⟩ := by
  rw [expanduser, if_pos (show output_path.data.head? = some '~' from by decide)]
  rw [show output_path.data.tail =
    ("Downloads/downloads-renamed.catalog.json").data.cons '/' from by decide]

/-- The two expanded paths differ whatever the home directory is. -/
theorem expanduser_paths_ne (home : String) :
    expanduser home output_path ≠ expanduser home catalog_path := by
  rw [expanduser_output, expanduser_catalog]
  intro h
  have hd := congrArg String.data h
  simp only [] at hd
  have := List.append_cancel_left hd
  exact absurd this (by decide)

/-- C6.  No error handling: when the input file is missing, its content
is not JSON, or the output write fails, the run aborts with an uncaught
fault and performs no write at all. -/
theorem claim_C6 (home : String) (fs : String → Option (List Char)) (writeOk : Bool)
    (h : fs (expanduser home catalog_path) = none ∨
         (∃ t, fs (expanduser home catalog_path) = some t ∧ loads t = none) ∨
         writeOk = false) :
    (∃ e, runScript home fs writeOk = .error e) ∧
    ∀ ws, runScript home fs writeOk ≠ .ok ws := by
  have hmain : ∃ e, runScript home fs writeOk = .error e := by
    rcases h with hn | ⟨t, ht, hl⟩ | hw
    · exact ⟨.fileNotFound, by simp [runScript, hn]⟩
    · exact ⟨.jsonDecodeError, by simp [runScript, ht, hl]⟩
    · subst hw
      cases hf : fs (expanduser home catalog_path) with
      | none => exact ⟨.fileNotFound, by simp [runScript, hf]⟩
      | some t =>
        cases hl : loads t with
        | none => exact ⟨.jsonDecodeError, by simp [runScript, hf, hl]⟩
        | some c =>
          cases hu : updateCatalog c with
          | error e => exact ⟨.pyError e, by simp [runScript, hf, hl, hu]⟩
          | ok c2 => exact ⟨.writeError, by simp [runScript, hf, hl, hu]⟩
  obtain ⟨e, he⟩ := hmain
  refine ⟨⟨e, he⟩, fun ws hws => ?_⟩
  rw [he] at hws
  exact absurd hws (by simp)

/-- C7.  The input catalog file is never written: a successful run
writes exactly one file, at the expanded output path, which differs
from the expanded input path for every home directory; the written
value keeps the input's top-level keys and its assets' number and
order, and an asset changes only if it satisfies the type/rename-table
match criterion. -/
theorem claim_C7 (home : String) (fs : String → Option (List Char)) (writeOk : Bool)
    (ws : List (String × List Char))
    (h : runScript home fs writeOk = .ok ws) :
    expanduser home output_path ≠ expanduser home catalog_path ∧
    (∀ w ∈ ws, w.1 = expanduser home output_path) ∧
    ∃ t kvs assets assets',
      fs (expanduser home catalog_path) = some t ∧
      loads t = some (.obj kvs) ∧
      lookupA kvs "assets" = some (.arr assets) ∧
      ws = [(expanduser home output_path,
             dumps (.obj (setKey kvs "assets" (.arr assets'))))] ∧
      (setKey kvs "assets" (.arr assets')).map Prod.fst = kvs.map Prod.fst ∧
      assets'.length = assets.length ∧
      (∀ i a0, assets.get? i = some (.obj a0) →
        ∃ b0, assets'.get? i = some (.obj b0) ∧ updateAsset a0 = .ok b0 ∧
          (b0 ≠ a0 → lookupA a0 "type" = some (.str "model") ∧
            ∃ idv, lookupA a0 "id" = some (.str idv) ∧
              (lookupA renames (trailingSegment idv)).isSome)) := by
  cases hf : fs (expanduser home catalog_path) with
  | none => simp only [runScript, hf] at h; exact absurd h (by simp)
  | some t =>
    cases hl : loads t with
    | none => simp only [runScript, hf, hl] at h; exact absurd h (by simp)
    | some c =>
      cases hu : updateCatalog c with
      | error e => simp only [runScript, hf, hl, hu] at h; exact absurd h (by simp)
      | ok c2 =>
        simp only [runScript, hf, hl, hu] at h
        cases hwk : writeOk with
        | false => rw [hwk] at h; exact absurd h (by simp)
        | true =>
          rw [hwk] at h
          simp only [if_pos rfl] at h
          obtain rfl := (Except.ok.inj h).symm
          cases c with
          | obj kvs =>
            cases hak : lookupA kvs "assets" with
            | none => simp only [updateCatalog, hak] at hu; exact absurd hu (by simp)
            | some v =>
              cases v with
              | arr assets =>
                obtain ⟨assets', hua, rfl⟩ := updateCatalog_obj_spec kvs assets c2 hak hu
                obtain ⟨hlen, hpt⟩ := updateAssets_ok_spec assets assets' hua
                refine ⟨expanduser_paths_ne home, by simp, t, kvs, assets, assets',
                  rfl, hl, hak, rfl, ?_, hlen, ?_⟩
                · exact keys_setKey kvs "assets" _ _ hak
                · intro i a0 h0
                  obtain ⟨b0j, hb0j, hupd0⟩ := hpt i _ h0
                  cases hua0 : updateAsset a0 with
                  | error e =>
                    simp only [updAssetJson, hua0] at hupd0
                    exact absurd hupd0 (by simp)
                  | ok b0 =>
                    simp only [updAssetJson, hua0] at hupd0
                    obtain rfl := (Except.ok.inj hupd0).symm
                    refine ⟨b0, hb0j, rfl, ?_⟩
                    intro hne
                    exact (updateAsset_changed_iff a0 b0 hua0).1 hne
              | null => simp only [updateCatalog, hak] at hu; exact absurd hu (by simp)
              | bool x => simp only [updateCatalog, hak] at hu; exact absurd hu (by simp)
              | num x => simp only [updateCatalog, hak] at hu; exact absurd hu (by simp)
              | str x => simp only [updateCatalog, hak] at hu; exact absurd hu (by simp)
              | obj x => simp only [updateCatalog, hak] at hu; exact absurd hu (by simp)
          | null => exact absurd hu (by simp [updateCatalog])
          | bool x => exact absurd hu (by simp [updateCatalog])
          | num x => exact absurd hu (by simp [updateCatalog])
          | str x => exact absurd hu (by simp [updateCatalog])
          | arr x => exact absurd hu (by simp [updateCatalog])

/-! ### Concrete witnesses

A small catalog holding one matching model asset and one non-model
asset, together with the rename-table entry the model asset hits. -/

def wAsset : List (String × Json) :=
  [("type", Json.str "model"),
   ("id", Json.str "downloads-pack/standard-model-1"),
   ("label", Json.str "Standard Model 1"),
   ("description", Json.str "old description"),
   ("tags", Json.arr [Json.str "old"])]

/-- The rename-table record for `standard-model-1`. -/
def wRd : RenameData :=
  ⟨"decorative-object-1", "Decorative Object 1",
   "3D decorative object for scenes (7.6M, medium-poly)",
   ["decorative", "prop", "medium-poly", "indoor"]⟩

def wAsset2 : List (String × Json) := applyRename wAsset wRd

def wAssetPlain : List (String × Json) :=
  [("type", Json.str "texture"), ("id", Json.str "downloads-pack/foo")]

def wKvs : List (String × Json) :=
  [("name", Json.str "downloads"),
   ("assets", Json.arr [Json.obj wAsset, Json.obj wAssetPlain])]

def wOut : Json :=
  Json.obj (setKey wKvs "assets" (Json.arr [Json.obj wAsset2, Json.obj wAssetPlain]))

/-- A catalog whose one model asset misses the rename table, small
enough for the serializer/parser pair to evaluate on. -/
def c4asset : List (String × Json) :=
  [("id", Json.str "a-b"), ("type", Json.str "model")]

def c4cat : Json := Json.obj [("assets", Json.arr [Json.obj c4asset])]

set_option maxHeartbeats 1000000 in
/-- Evaluation of the round trip on the concrete catalog `c4cat`. -/
theorem c4cat_roundtrip : loads (dumps c4cat) = some c4cat := by
  simp [loads, dumps, c4cat, c4asset, serJson, serObjEntry, serObjItems, serArrItems,
    natDigits, intChars, indentChars, escapeList, escapeChar, parseValue, parseArrItems,
    parseObjItems, parseStringBody, parseEsc, parseHexEsc, parseLowSur, skipWs, isWsChar,
    parseNumber, parseNat, parseDigits, fracGuard, escDecode, hexVal, isDigitChar,
    openBrace, closeBrace, digitChar, objFromPairsAux, setKey, List.replicate]

/-- Witness for C1 on the concrete catalog. -/
theorem claim_C1_witness :
    lookupA wKvs "assets" = some (Json.arr [Json.obj wAsset, Json.obj wAssetPlain]) ∧
    updateCatalog (Json.obj wKvs) = Except.ok wOut ∧
    [Json.obj wAsset, Json.obj wAssetPlain].get? 0 = some (Json.obj wAsset) ∧
    lookupA wAsset "type" = some (Json.str "model") ∧
    lookupA wAsset "id" = some (Json.str "downloads-pack/standard-model-1") ∧
    lookupA renames (trailingSegment "downloads-pack/standard-model-1") = some wRd ∧
    ∃ assets', wOut = Json.obj (setKey wKvs "assets" (Json.arr assets')) ∧
      assets'.length = [Json.obj wAsset, Json.obj wAssetPlain].length ∧
      assets'.get? 0 = some (Json.obj (applyRename wAsset wRd)) ∧
      lookupA (applyRename wAsset wRd) "id" =
        some (Json.str ("downloads-pack/" ++ wRd.name)) ∧
      lookupA (applyRename wAsset wRd) "label" = some (Json.str wRd.label) ∧
      lookupA (applyRename wAsset wRd) "description" = some (Json.str wRd.description) ∧
      lookupA (applyRename wAsset wRd) "tags" =
        some (Json.arr (wRd.tags.map Json.str)) :=
  ⟨rfl, rfl, rfl, rfl, rfl, rfl,
    claim_C1 wKvs [Json.obj wAsset, Json.obj wAssetPlain] wOut rfl rfl 0 wAsset rfl rfl
      "downloads-pack/standard-model-1" rfl wRd rfl⟩

/-- Witness for C2 on the concrete catalog's non-model asset. -/
theorem claim_C2_witness :
    lookupA wKvs "assets" = some (Json.arr [Json.obj wAsset, Json.obj wAssetPlain]) ∧
    updateCatalog (Json.obj wKvs) = Except.ok wOut ∧
    [Json.obj wAsset, Json.obj wAssetPlain].get? 1 = some (Json.obj wAssetPlain) ∧
    lookupA wAssetPlain "type" ≠ some (Json.str "model") ∧
    ∃ assets', wOut = Json.obj (setKey wKvs "assets" (Json.arr assets')) ∧
      assets'.get? 1 = some (Json.obj wAssetPlain) :=
  ⟨rfl, rfl, rfl, by simp [wAssetPlain, lookupA],
    claim_C2 wKvs [Json.obj wAsset, Json.obj wAssetPlain] wOut rfl rfl 1 wAssetPlain rfl
      (Or.inl (by simp [wAssetPlain, lookupA]))⟩

/-- Witness for C3 on the concrete matching asset. -/
theorem claim_C3_witness :
    updateAsset wAsset = Except.ok wAsset2 ∧
    ((wAsset2 ≠ wAsset ↔ (lookupA wAsset "type" = some (Json.str "model") ∧
      ∃ i, lookupA wAsset "id" = some (Json.str i) ∧
        (lookupA renames (trailingSegment i)).isSome)) ∧
    (∀ b b', updateAsset b = .ok b' →
      lookupA b "type" = lookupA wAsset "type" → lookupA b "id" = lookupA wAsset "id" →
      (b' ≠ b ↔ wAsset2 ≠ wAsset))) :=
  ⟨rfl, claim_C3 wAsset wAsset2 rfl⟩

/-- Witness for C4: on the concrete catalog the written text parses
back to the written value. -/
theorem claim_C4_witness :
    loads (dumps c4cat) = some c4cat ∧
    updateCatalog c4cat = Except.ok c4cat ∧
    loads (dumps c4cat) = some c4cat :=
  ⟨c4cat_roundtrip, rfl, claim_C4 (dumps c4cat) c4cat c4cat c4cat_roundtrip rfl⟩

/-- Witness for C5 on the concrete two-asset list. -/
theorem claim_C5_witness :
    updateAssets [Json.obj wAsset, Json.obj wAssetPlain] =
      Except.ok [Json.obj wAsset2, Json.obj wAssetPlain] ∧
    ([Json.obj wAsset2, Json.obj wAssetPlain].length =
      [Json.obj wAsset, Json.obj wAssetPlain].length ∧
    (∀ i a0, [Json.obj wAsset, Json.obj wAssetPlain].get? i = some a0 →
      ∃ b0, [Json.obj wAsset2, Json.obj wAssetPlain].get? i = some b0 ∧
        updAssetJson a0 = .ok b0) ∧
    (∀ i a idv rd, [Json.obj wAsset, Json.obj wAssetPlain].get? i = some (.obj a) →
      lookupA a "type" = some (.str "model") →
      lookupA a "id" = some (.str idv) →
      lookupA renames (trailingSegment idv) = some rd →
      [Json.obj wAsset2, Json.obj wAssetPlain].get? i = some (.obj (applyRename a rd)))) :=
  ⟨rfl, claim_C5 [Json.obj wAsset, Json.obj wAssetPlain]
    [Json.obj wAsset2, Json.obj wAssetPlain] rfl⟩

/-- Witness for C6: a file system with no input file aborts the run. -/
theorem claim_C6_witness :
    ((fun _ : String => (none : Option (List Char)))
        (expanduser "/home/u" catalog_path) = none ∨
      (∃ t, (fun _ : String => (none : Option (List Char)))
          (expanduser "/home/u" catalog_path) = some t ∧ loads t = none) ∨
      true = false) ∧
    ((∃ e, runScript "/home/u" (fun _ => none) true = Except.error e) ∧
      ∀ ws, runScript "/home/u" (fun _ => none) true ≠ Except.ok ws) :=
  ⟨Or.inl rfl, claim_C6 "/home/u" (fun _ => none) true (Or.inl rfl)⟩

/-- Witness for C7 on a successful concrete run. -/
theorem claim_C7_witness :
    runScript "/h" (fun _ => some (dumps c4cat)) true =
      Except.ok [(expanduser "/h" output_path, dumps c4cat)] ∧
    (expanduser "/h" output_path ≠ expanduser "/h" catalog_path ∧
    (∀ w ∈ [(expanduser "/h" output_path, dumps c4cat)],
      w.1 = expanduser "/h" output_path) ∧
    ∃ t kvs assets assets',
      (fun _ : String => some (dumps c4cat)) (expanduser "/h" catalog_path) = some t ∧
      loads t = some (Json.obj kvs) ∧
      lookupA kvs "assets" = some (Json.arr assets) ∧
      [(expanduser "/h" output_path, dumps c4cat)] =
        [(expanduser "/h" output_path,
          dumps (Json.obj (setKey kvs "assets" (Json.arr assets'))))] ∧
      (setKey kvs "assets" (Json.arr assets')).map Prod.fst = kvs.map Prod.fst ∧
      assets'.length = assets.length ∧
      (∀ i a0, assets.get? i = some (.obj a0) →
        ∃ b0, assets'.get? i = some (.obj b0) ∧ updateAsset a0 = .ok b0 ∧
          (b0 ≠ a0 → lookupA a0 "type" = some (.str "model") ∧
            ∃ idv, lookupA a0 "id" = some (.str idv) ∧
              (lookupA renames (trailingSegment idv)).isSome))) := by
  have hrun : runScript "/h" (fun _ => some (dumps c4cat)) true =
      Except.ok [(expanduser "/h" output_path, dumps c4cat)] := by
    simp [runScript, c4cat_roundtrip, show updateCatalog c4cat = Except.ok c4cat from rfl]
  exact ⟨hrun, claim_C7 "/h" (fun _ => some (dumps c4cat)) true
    [(expanduser "/h" output_path, dumps c4cat)] hrun⟩

/-- Witness for C8 on the concrete matching asset. -/
theorem claim_C8_witness :
    lookupA wAsset "type" = some (Json.str "model") ∧
    lookupA wAsset "id" = some (Json.str ("downloads-pack" ++ "/" ++ "standard-model-1")) ∧
    '/' ∉ ("standard-model-1" : String).data ∧
    lookupA renames "standard-model-1" = some wRd ∧
    (updateAsset wAsset = Except.ok (applyRename wAsset wRd) ∧
     lookupA (applyRename wAsset wRd) "id" =
       some (Json.str ("downloads-pack/" ++ wRd.name))) :=
  ⟨rfl, rfl, by decide, rfl,
    claim_C8 wAsset "downloads-pack" "standard-model-1" wRd rfl rfl (by decide) rfl⟩

/-- Witness for C9 on the concrete catalog. -/
theorem claim_C9_witness :
    updateCatalog (Json.obj wKvs) = Except.ok wOut ∧
    updateCatalog wOut = Except.ok wOut :=
  ⟨rfl, claim_C9 (Json.obj wKvs) wOut rfl⟩

/-- Witness for C10 on the concrete matching asset. -/
theorem claim_C10_witness :
    lookupA wAsset "type" = some (Json.str "model") ∧
    lookupA wAsset "id" = some (Json.str "downloads-pack/standard-model-1") ∧
    lookupA renames (trailingSegment "downloads-pack/standard-model-1") = some wRd ∧
    updateAsset wAsset = Except.ok wAsset2 ∧
    (lookupA wAsset2 "type" = some (Json.str "model") ∧
     ∀ k, k ≠ "id" → k ≠ "label" → k ≠ "description" → k ≠ "tags" →
       lookupA wAsset2 k = lookupA wAsset k) :=
  ⟨rfl, rfl, rfl, rfl,
    claim_C10 wAsset wAsset2 "downloads-pack/standard-model-1" wRd rfl rfl rfl rfl⟩
